import Mathlib

/-!
# Verification of the fast-hampath core

Shallow embedding of the three core components of the `fast-hampath`
repository — `tngraph.rs` (tournament graph construction and validation),
`perm_ll.rs` (the permutation linked list), and `fastpath.rs` (the
incremental Hamiltonian-path builder) — together with proofs of the
behavioural claims about them.

Modelling conventions:
* `NodeID = usize` becomes `Nat`.
* A `Node` holds its out-edge targets as arena references; since every
  reference stored in a graph points at the node with the corresponding
  id, a node is modelled by its list of out-neighbour ids, and a
  `TournamentGraph` by the list of those lists indexed by node id.
* Rust panics (failed `assert!`s, out-of-bounds indexing, `.expect`) are
  modelled by `Except AbortKind` / `Option`: an `error`/`none` result
  means the Rust program aborts.  `AbortKind` distinguishes the
  self-edge assertion of `new_unchecked` from an out-of-bounds index.
* The global boolean RNG used by `random_edges` is modelled by a stream
  `coins : Nat → Bool`; draw number `d` (in program order) returns
  `coins d`.  `random_edges` draws once per pair `(i, j)` with
  `j < i < n`, outer loop on `i`, inner on `j`, so the draw for `(i, j)`
  is draw number `i*(i-1)/2 + j`.
-/

/-- Kinds of abort (Rust panic) that graph construction can hit:
the `assert_ne!` guarding self-edges, or an out-of-bounds index. -/
inductive AbortKind where
  | selfEdge (id : Nat) : AbortKind
  | oobIndex : AbortKind
deriving DecidableEq, Repr

/-- Adjacency storage of a graph: entry `i` is node `i`'s list of
out-edge targets, in insertion order (Rust: `Vec<&Node>` per node). -/
abbrev OutLists := List (List Nat)

/-- The tournament graph: the node vector, each node reduced to its
out-neighbour id list (`tngraph.rs`, `struct TournamentGraph`). -/
structure TournamentGraph where
  nodes : OutLists
deriving DecidableEq, Repr

namespace TournamentGraph

/-- The edge-insertion loop of `new_unchecked`: for each `(src, snk)`,
assert `src ≠ snk`, index `nodes[snk]` then `nodes[src]`, and push
`snk` onto node `src`'s out-edge vector. -/
def insertEdges : OutLists → List (Nat × Nat) → Except AbortKind OutLists
  | nodes, [] => .ok nodes
  | nodes, (src, snk) :: rest =>
    if src = snk then .error (.selfEdge src)
    else if snk < nodes.length then
      if src < nodes.length then
        insertEdges (nodes.set src (nodes.getD src [] ++ [snk])) rest
      else .error .oobIndex
    else .error .oobIndex

/-- Rust `TournamentGraph::new_unchecked`: allocate `n` empty nodes, then run
the edge-insertion loop. -/
def new_unchecked (n : Nat) (edges : List (Nat × Nat)) :
    Except AbortKind TournamentGraph :=
  (insertEdges (List.replicate n []) edges).map TournamentGraph.mk

/-- Out-neighbour list of node `a` (empty for an id with no node). -/
def outOf (g : TournamentGraph) (a : Nat) : List Nat :=
  g.nodes.getD a []

/-- Rust `TournamentGraph::is_valid_tournament_graph`: every node's out-edge
vector is duplicate-free, and every unordered pair `{i, j}` with
`i < j` has exactly one of the two directed edges. -/
def is_valid_tournament_graph (g : TournamentGraph) : Bool :=
  (g.nodes.all fun l => decide l.Nodup) &&
  ((List.range g.nodes.length).all fun i =>
    (List.range g.nodes.length).all fun j =>
      if i < j then xor (decide (j ∈ g.outOf i)) (decide (i ∈ g.outOf j))
      else true)

/-- Rust `TournamentGraph::new`: build unchecked, then validate; a failed
validation yields `ok none` (Rust `None`), an abort propagates. -/
def new (n : Nat) (edges : List (Nat × Nat)) :
    Except AbortKind (Option TournamentGraph) :=
  (new_unchecked n edges).map fun g =>
    if g.is_valid_tournament_graph then some g else none

/-- The random edge generator `random_edges`: for `i` in `0..n` and `j`
in `0..i`, one boolean draw decides between edge `(i, j)` (draw `true`)
and `(j, i)` (draw `false`).  Draws happen in loop order, so the draw
for `(i, j)` is draw number `i*(i-1)/2 + j` of the stream. -/
def random_edges (n : Nat) (coins : Nat → Bool) : List (Nat × Nat) :=
  (List.range n).flatMap fun i =>
    (List.range i).map fun j =>
      if coins (i * (i - 1) / 2 + j) then (i, j) else (j, i)

/-- Rust `TournamentGraph::new_random`: generate random edges, build unchecked. -/
def new_random (n : Nat) (coins : Nat → Bool) :
    Except AbortKind TournamentGraph :=
  new_unchecked n (random_edges n coins)

/-- Body of the `validate_path` edge walk: check that each consecutive
pair `(cur, next)` has `next` among `cur`'s out-neighbours; looking up
a node out of range aborts (`none`). -/
def validateGo (g : TournamentGraph) : Nat → List Nat → Option Bool
  | _, [] => some true
  | cur, next :: rest =>
    match g.nodes[cur]? with
    | none => none
    | some outs => if next ∈ outs then validateGo g next rest else some false

/-- Rust `TournamentGraph::validate_path`: reject on wrong length, then walk
the consecutive pairs.  On an empty candidate of the right length (only
possible for the empty graph) the Rust code indexes `path[0]` and
aborts, modelled by `none`. -/
def validate_path (g : TournamentGraph) (path : List Nat) : Option Bool :=
  if path.length ≠ g.nodes.length then some false
  else
    match path with
    | [] => none
    | c :: rest => validateGo g c rest

end TournamentGraph

/-- The permutation linked list (`perm_ll.rs`): successor array plus
explicit head and tail ids. -/
structure PLinkedList where
  first : Nat
  last : Nat
  links : List (Option Nat)
deriving DecidableEq, Repr

namespace PLinkedList

/-- Rust `PLinkedList::new`. -/
def new (length first : Nat) : PLinkedList :=
  ⟨first, first, List.replicate length none⟩

/-- Rust `PLinkedList::get_succ`; outer `none` models the index abort. -/
def get_succ (l : PLinkedList) (cur : Nat) : Option (Option Nat) :=
  l.links[cur]?

/-- Rust `PLinkedList::insert_after`: read `links[cur]`, set
`links[cur] := some next`, `links[next] := old successor`, and move the
tail if `cur` was the tail.  Out-of-range `cur` or `next` aborts. -/
def insert_after (l : PLinkedList) (cur next : Nat) : Option PLinkedList :=
  match l.links[cur]? with
  | none => none
  | some cur_succ =>
    if next < l.links.length then
      some { first := l.first
             last := if cur = l.last then next else l.last
             links := (l.links.set cur (some next)).set next cur_succ }
    else none

/-- Rust `PLinkedList::insert_at_end`: `links[last] := some new; last := new`. -/
def insert_at_end (l : PLinkedList) (new : Nat) : Option PLinkedList :=
  if l.last < l.links.length then
    some { first := l.first, last := new
           links := l.links.set l.last (some new) }
  else none

/-- Rust `PLinkedList::insert_at_start`: `links[new] := some first;
first := new`. -/
def insert_at_start (l : PLinkedList) (new : Nat) : Option PLinkedList :=
  if new < l.links.length then
    some { first := new, last := l.last
           links := l.links.set new (some l.first) }
  else none

/-- The collecting iterator (`PLinkedListIterator` + `collect`): follow
successor links from `cur`; `none` models an index abort or a cycle
(on a cycle the Rust iterator never terminates, so no list is ever
produced; `fuel` bounds the walk strictly above any acyclic chain
length). -/
def iterFrom (links : List (Option Nat)) : Nat → Option Nat → Option (List Nat)
  | _, none => some []
  | 0, some _ => none
  | fuel + 1, some c =>
    match links[c]? with
    | none => none
    | some nxt => (iterFrom links fuel nxt).map (c :: ·)

/-- Rust `pll.iter().collect::<Vec<_>>()`. -/
def iterList (l : PLinkedList) : Option (List Nat) :=
  iterFrom l.links (l.links.length + 1) (some l.first)

end PLinkedList

/-- The path builder (`fastpath.rs`, `struct HampathBuilder`). -/
structure HampathBuilder where
  num_nodes : Nat
  last_node : Nat
  cur_path : PLinkedList
  graph : TournamentGraph

namespace HampathBuilder

/-- Rust `HampathBuilder::search_for_insert_point`: scan consecutive windows
`(prev, next)` of the path; return `prev` of the first window whose
`next` lies in `neighs`.  The Rust code panics when no window matches,
modelled by `none`. -/
def search_for_insert_point (neighs : List Nat) : List Nat → Option Nat
  | p :: q :: rest =>
    if q ∈ neighs then some p else search_for_insert_point neighs (q :: rest)
  | _ => none

/-- Rust `HampathBuilder::extend`: assert `new_nid < num_nodes`; prepend if
there is an edge `new_nid → first`; else append if there is an edge
`last → new_nid`; else search the path for the first transition window
and splice after it.  Any abort (assert, node lookup, failed search,
list-op index) yields `none`. -/
def extend (b : HampathBuilder) (new_nid : Nat) : Option PLinkedList :=
  let first_nid := b.cur_path.first
  let last_nid := b.cur_path.last
  if new_nid < b.num_nodes then
    match b.graph.nodes[new_nid]? with
    | none => none
    | some neighsNew =>
      if first_nid ∈ neighsNew then b.cur_path.insert_at_start new_nid
      else
        match b.graph.nodes[last_nid]? with
        | none => none
        | some neighsLast =>
          if new_nid ∈ neighsLast then b.cur_path.insert_at_end new_nid
          else
            match b.cur_path.iterList with
            | none => none
            | some path =>
              match search_for_insert_point neighsNew path with
              | none => none
              | some i_id => b.cur_path.insert_after i_id new_nid
  else none

/-- One pass of the `solve_path` while-loop body, iterated `k` times:
each pass extends with `last_node + 1` and then increments `last_node`. -/
def solveSteps : HampathBuilder → Nat → Option HampathBuilder
  | b, 0 => some b
  | b, k + 1 =>
    match b.extend (b.last_node + 1) with
    | none => none
    | some p =>
      solveSteps { b with cur_path := p, last_node := b.last_node + 1 } k

/-- Rust `HampathBuilder::solve_path`: run the while-loop (`last_node + 1 <
num_nodes` holds for exactly `num_nodes - (last_node + 1)` iterations,
since each iteration increments `last_node`), then collect the list. -/
def solve_path (b : HampathBuilder) : Option (List Nat) :=
  match solveSteps b (b.num_nodes - (b.last_node + 1)) with
  | none => none
  | some b2 => b2.cur_path.iterList

/-- Rust `HampathBuilder::solution_pair`: the solved path with the graph. -/
def solution_pair (b : HampathBuilder) :
    Option (List Nat × TournamentGraph) :=
  (b.solve_path).map fun p => (p, b.graph)

/-- The builder state every constructor produces for a graph `g`:
`num_nodes` is the node count, `last_node = 0`, and the path holds the
single node `0` (`PLinkedList::new(n, 0)`). -/
def init (g : TournamentGraph) : HampathBuilder :=
  ⟨g.nodes.length, 0, PLinkedList.new g.nodes.length 0, g⟩

/-- Rust `HampathBuilder::new`: validated construction; a validation failure
hits the `.expect`, an edge abort propagates — both are `none`. -/
def new (n : Nat) (edges : List (Nat × Nat)) : Option HampathBuilder :=
  match TournamentGraph.new n edges with
  | .ok (some g) => some ⟨n, 0, PLinkedList.new n 0, g⟩
  | _ => none

end HampathBuilder

namespace PLinkedList

/-- Specification-side chain predicate on the successor array: the
given nonempty id list is exactly the chain the links spell out, the
last id linking to `None`. -/
def chainedB (links : List (Option Nat)) : List Nat → Bool
  | [] => true
  | [x] => links[x]? == some none
  | x :: y :: rest => (links[x]? == some (some y)) && chainedB links (y :: rest)

/-- Splicing a new id immediately after the first occurrence of an
existing id, at the level of plain lists. -/
def spliceAfter : List Nat → Nat → Nat → List Nat
  | [], _, _ => []
  | a :: rest, e, x =>
    if a = e then a :: x :: rest else a :: spliceAfter rest e x

/-- The representation invariant of a well-used `PLinkedList`: some
duplicate-free nonempty id list runs from `first` to `last` through the
links, and every in-range id off that list still has an empty link. -/
abbrev LInv (l : PLinkedList) (path : List Nat) : Prop :=
  path ≠ [] ∧ path.Nodup ∧
  path.head? = some l.first ∧ path.getLast? = some l.last ∧
  chainedB l.links path = true ∧
  ∀ x, x < l.links.length → x ∉ path → l.links[x]? = some none

/-- The states reachable from `PLinkedList::new(length, first)` using
the three insertion operations under the documented discipline: only
ids of the universe `[0, length)` not yet placed are inserted, and
`insert_after` only receives an already-placed id to insert after.
The list argument records the placed ids (most recent first). -/
inductive Reached (length first : Nat) : PLinkedList → List Nat → Prop where
  | init : first < length → Reached length first (new length first) [first]
  | step_after {l l2 : PLinkedList} {placed : List Nat} {e x : Nat} :
      Reached length first l placed → e ∈ placed →
      x < length → x ∉ placed → l.insert_after e x = some l2 →
      Reached length first l2 (x :: placed)
  | step_start {l l2 : PLinkedList} {placed : List Nat} {x : Nat} :
      Reached length first l placed →
      x < length → x ∉ placed → l.insert_at_start x = some l2 →
      Reached length first l2 (x :: placed)
  | step_end {l l2 : PLinkedList} {placed : List Nat} {x : Nat} :
      Reached length first l placed →
      x < length → x ∉ placed → l.insert_at_end x = some l2 →
      Reached length first l2 (x :: placed)

end PLinkedList

namespace HampathBuilder

/-- The per-step transition exactly as the specification words it: if
edge `k → h` exists insert at the start; else if edge `t → k` exists
insert at the end; else scan the consecutive pairs `(prev, next)` of
the path from head to tail and insert after the `prev` of the first
pair whose `next` the new node has an edge into. -/
def extendSpec (g : TournamentGraph) (pll : PLinkedList) (k : Nat) :
    Option PLinkedList :=
  if pll.first ∈ g.outOf k then pll.insert_at_start k
  else if k ∈ g.outOf pll.last then pll.insert_at_end k
  else
    match pll.iterList with
    | none => none
    | some path =>
      match (path.zip path.tail).find? (fun pq => decide (pq.2 ∈ g.outOf k)) with
      | some pq => pll.insert_after pq.1 k
      | none => none

end HampathBuilder

/-! ## List helpers -/

/-- Reading a just-written slot of an adjacency vector. -/
theorem getD_set_self {α : Type} (l : List α) (i : Nat) (v d : α)
    (h : i < l.length) : (l.set i v).getD i d = v := by
  rw [List.getD_eq_getElem?_getD, List.getElem?_set_eq_of_lt v h]; rfl

/-- Reading a slot other than the one just written. -/
theorem getD_set_ne {α : Type} (l : List α) {i j : Nat} (v d : α)
    (h : i ≠ j) : (l.set i v).getD j d = l.getD j d := by
  rw [List.getD_eq_getElem?_getD, List.getElem?_set_ne h,
    ← List.getD_eq_getElem?_getD]

/-- Every slot of the freshly allocated node vector is empty. -/
theorem getD_replicate_nil (n a : Nat) :
    (List.replicate n ([] : List Nat)).getD a [] = [] := by
  rw [List.getD_eq_getElem?_getD, List.getElem?_replicate]
  split <;> rfl

/-- Reading past the end of the node vector yields the default. -/
theorem getD_of_le {α : Type} (l : List α) {a : Nat} (d : α)
    (h : l.length ≤ a) : l.getD a d = d := by
  rw [List.getD_eq_getElem?_getD, List.getElem?_eq_none h]; rfl

namespace TournamentGraph

/-! ## Edge insertion -/

/-- When every requested edge is in range and not a self-edge, the
insertion loop succeeds, and each node's final out-vector is its
initial one followed by the targets of its edges in list order. -/
theorem insertEdges_ok (edges : List (Nat × Nat)) : ∀ (start : OutLists),
    (∀ p ∈ edges, p.1 < start.length ∧ p.2 < start.length ∧ p.1 ≠ p.2) →
    ∃ ns, insertEdges start edges = .ok ns ∧
      ns.length = start.length ∧
      ∀ a, ns.getD a [] =
        start.getD a [] ++ (edges.filter fun p => p.1 == a).map Prod.snd := by
  induction edges with
  | nil =>
    intro start _
    exact ⟨start, rfl, rfl, fun a => by simp [insertEdges]⟩
  | cons e rest ih =>
    obtain ⟨src, snk⟩ := e
    intro start h
    obtain ⟨hs, hk, hne⟩ := h (src, snk) (List.mem_cons_self _ _)
    have hlen : (start.set src (start.getD src [] ++ [snk])).length =
        start.length := List.length_set ..
    obtain ⟨ns, heq, hlen2, hchar⟩ :=
      ih (start.set src (start.getD src [] ++ [snk]))
        (fun p hp => by
          rw [hlen]
          exact h p (List.mem_cons_of_mem _ hp))
    refine ⟨ns, ?_, by rw [hlen2, hlen], ?_⟩
    · rw [show insertEdges start ((src, snk) :: rest) =
        insertEdges (start.set src (start.getD src [] ++ [snk])) rest from by
          simp only [insertEdges]
          rw [if_neg hne, if_pos hk, if_pos hs]]
      exact heq
    · intro a
      rw [hchar a, List.filter_cons]
      by_cases hsa : src = a
      · subst hsa
        simp only [beq_self_eq_true, if_pos]
        rw [getD_set_self _ _ _ _ hs]
        simp [List.append_assoc]
      · have : ((src, snk).1 == a) = false := by
          simp [hsa]
        rw [this]
        simp only [Bool.false_eq_true, if_false]
        rw [getD_set_ne _ _ _ hsa]

/-- Lemma: `new_unchecked` on an in-range, self-edge-free edge list yields a
graph whose adjacency is exactly the requested edges. -/
theorem new_unchecked_ok (n : Nat) (edges : List (Nat × Nat))
    (h : ∀ p ∈ edges, p.1 < n ∧ p.2 < n ∧ p.1 ≠ p.2) :
    ∃ g : TournamentGraph, new_unchecked n edges = .ok g ∧
      g.nodes.length = n ∧
      ∀ a, g.outOf a = (edges.filter fun p => p.1 == a).map Prod.snd := by
  obtain ⟨ns, heq, hlen, hchar⟩ := insertEdges_ok edges (List.replicate n [])
    (fun p hp => by simpa using h p hp)
  refine ⟨⟨ns⟩, ?_, by simpa using hlen, fun a => ?_⟩
  · rw [new_unchecked, heq]; rfl
  · show ns.getD a [] = _
    rw [hchar a, getD_replicate_nil]
    rfl

/-- Membership form of `new_unchecked_ok`'s adjacency description. -/
theorem mem_filterMap_snd_iff (edges : List (Nat × Nat)) (a b : Nat) :
    (b ∈ (edges.filter fun p => p.1 == a).map Prod.snd) ↔ (a, b) ∈ edges := by
  simp only [List.mem_map, List.mem_filter, beq_iff_eq]
  constructor
  · rintro ⟨⟨x, y⟩, ⟨hm, rfl⟩, rfl⟩
    exact hm
  · intro hm
    exact ⟨(a, b), ⟨hm, rfl⟩, rfl⟩

/-- An edge list containing a self-edge always aborts the insertion
loop (either at the self-edge assertion or at an earlier bad index). -/
theorem insertEdges_self_abort {i : Nat} :
    ∀ (edges : List (Nat × Nat)) (start : OutLists), (i, i) ∈ edges →
    ∃ e, insertEdges start edges = .error e := by
  intro edges
  induction edges with
  | nil => intro start h; exact absurd h (List.not_mem_nil _)
  | cons p rest ih =>
    obtain ⟨src, snk⟩ := p
    intro start h
    by_cases hsk : src = snk
    · exact ⟨.selfEdge src, by simp [insertEdges, hsk]⟩
    · have hrest : (i, i) ∈ rest := by
        rcases List.mem_cons.mp h with h0 | h0
        · cases h0; exact absurd rfl hsk
        · exact h0
      by_cases hk : snk < start.length
      · by_cases hs : src < start.length
        · obtain ⟨e, he⟩ :=
            ih (start.set src (start.getD src [] ++ [snk])) hrest
          refine ⟨e, ?_⟩
          rw [show insertEdges start ((src, snk) :: rest) =
            insertEdges (start.set src (start.getD src [] ++ [snk])) rest from by
              simp only [insertEdges]
              rw [if_neg hsk, if_pos hk, if_pos hs]]
          exact he
        · exact ⟨.oobIndex, by
            simp only [insertEdges]
            rw [if_neg hsk, if_pos hk, if_neg hs]⟩
      · exact ⟨.oobIndex, by
          simp only [insertEdges]
          rw [if_neg hsk, if_neg hk]⟩

/-- With all endpoints in range, the abort on a self-edge-containing
list is specifically the `assert_ne!` self-edge assertion. -/
theorem insertEdges_self_assert {i : Nat} :
    ∀ (edges : List (Nat × Nat)) (start : OutLists), (i, i) ∈ edges →
    (∀ p ∈ edges, p.1 < start.length ∧ p.2 < start.length) →
    ∃ j, insertEdges start edges = .error (.selfEdge j) := by
  intro edges
  induction edges with
  | nil => intro start h _; exact absurd h (List.not_mem_nil _)
  | cons p rest ih =>
    obtain ⟨src, snk⟩ := p
    intro start h hwf
    by_cases hsk : src = snk
    · exact ⟨src, by simp [insertEdges, hsk]⟩
    · have hrest : (i, i) ∈ rest := by
        rcases List.mem_cons.mp h with h0 | h0
        · cases h0; exact absurd rfl hsk
        · exact h0
      obtain ⟨hs, hk⟩ := hwf (src, snk) (List.mem_cons_self _ _)
      have hlen : (start.set src (start.getD src [] ++ [snk])).length =
          start.length := List.length_set ..
      obtain ⟨j, hj⟩ := ih (start.set src (start.getD src [] ++ [snk])) hrest
        (fun p hp => by
          rw [hlen]
          exact hwf p (List.mem_cons_of_mem _ hp))
      refine ⟨j, ?_⟩
      rw [show insertEdges start ((src, snk) :: rest) =
        insertEdges (start.set src (start.getD src [] ++ [snk])) rest from by
          simp only [insertEdges]
          rw [if_neg hsk, if_pos hk, if_pos hs]]
      exact hj

/-! ## The validity check -/

/-- Unfolding of a passed tournament-property check: duplicate-free
out-vectors, and for each pair `i < j` exactly one direction. -/
theorem is_valid_parts {g : TournamentGraph}
    (h : g.is_valid_tournament_graph = true) :
    (∀ l ∈ g.nodes, l.Nodup) ∧
    ∀ i j, i < g.nodes.length → j < g.nodes.length → i < j →
      ((j ∈ g.outOf i) ↔ ¬ (i ∈ g.outOf j)) := by
  rw [is_valid_tournament_graph, Bool.and_eq_true] at h
  obtain ⟨h1, h2⟩ := h
  constructor
  · intro l hl
    have := List.all_eq_true.mp h1 l hl
    exact of_decide_eq_true this
  · intro i j hi hj hij
    have hx := List.all_eq_true.mp
      (List.all_eq_true.mp h2 i (List.mem_range.mpr hi)) j
      (List.mem_range.mpr hj)
    rw [if_pos hij] at hx
    revert hx
    by_cases ha : j ∈ g.outOf i <;> by_cases hb : i ∈ g.outOf j <;>
      simp [ha, hb]

/-- Converse direction: the two properties make the check pass. -/
theorem is_valid_intro {g : TournamentGraph}
    (h1 : ∀ l ∈ g.nodes, l.Nodup)
    (h2 : ∀ i j, i < g.nodes.length → j < g.nodes.length → i < j →
      ((j ∈ g.outOf i) ↔ ¬ (i ∈ g.outOf j))) :
    g.is_valid_tournament_graph = true := by
  rw [is_valid_tournament_graph, Bool.and_eq_true]
  constructor
  · exact List.all_eq_true.mpr fun l hl => decide_eq_true (h1 l hl)
  · refine List.all_eq_true.mpr fun i hi => List.all_eq_true.mpr fun j hj => ?_
    rw [List.mem_range] at hi hj
    by_cases hij : i < j
    · rw [if_pos hij]
      have := h2 i j hi hj hij
      by_cases ha : j ∈ g.outOf i <;> by_cases hb : i ∈ g.outOf j <;>
        simp [ha, hb] at this ⊢
    · rw [if_neg hij]

/-- A pair with both directions or neither makes the check fail. -/
theorem is_valid_false_of_pair {g : TournamentGraph} {i j : Nat}
    (hi : i < g.nodes.length) (hj : j < g.nodes.length) (hij : i < j)
    (hbad : (j ∈ g.outOf i) ↔ (i ∈ g.outOf j)) :
    g.is_valid_tournament_graph = false := by
  cases hv : g.is_valid_tournament_graph with
  | false => rfl
  | true =>
    have := (is_valid_parts hv).2 i j hi hj hij
    tauto

/-- Totality of a valid tournament: any two distinct in-range nodes
have exactly one directed edge between them. -/
theorem valid_total {g : TournamentGraph}
    (h : g.is_valid_tournament_graph = true) {a b : Nat}
    (ha : a < g.nodes.length) (hb : b < g.nodes.length) (hne : a ≠ b) :
    (b ∈ g.outOf a) ↔ ¬ (a ∈ g.outOf b) := by
  rcases Nat.lt_or_ge a b with hab | hab
  · exact (is_valid_parts h).2 a b ha hb hab
  · have hba : b < a := Nat.lt_of_le_of_ne hab (Ne.symm hne)
    have := (is_valid_parts h).2 b a hb ha hba
    tauto

/-! ## `validate_path` -/

/-- The edge-walk loop accepts exactly when the consecutive-pair edge
relation holds along the whole candidate. -/
theorem validateGo_eq_true_iff (g : TournamentGraph) : ∀ (rest : List Nat)
    (cur : Nat), (validateGo g cur rest = some true ↔
      List.Chain' (fun a b => b ∈ g.outOf a) (cur :: rest)) := by
  intro rest
  induction rest with
  | nil => intro cur; simp [validateGo]
  | cons next rest ih =>
    intro cur
    rw [validateGo]
    cases hc : g.nodes[cur]? with
    | none =>
      have hout : g.outOf cur = [] := by
        rw [outOf, getD_of_le]
        by_contra hlt
        rw [List.getElem?_eq_getElem (by omega)] at hc
        exact Option.noConfusion hc
      simp only [List.chain'_cons]
      constructor
      · intro hfalse; exact Option.noConfusion hfalse
      · rintro ⟨hmem, -⟩
        rw [hout] at hmem
        exact absurd hmem (List.not_mem_nil _)
    | some outs =>
      have hlt : cur < g.nodes.length := by
        rw [List.getElem?_eq_some] at hc
        exact hc.1
      have houts : outs = g.outOf cur := by
        rw [List.getElem?_eq_getElem hlt] at hc
        rw [outOf, List.getD_eq_getElem?_getD, List.getElem?_eq_getElem hlt]
        exact (Option.some.inj hc).symm
      show (if next ∈ outs then validateGo g next rest else some false) =
        some true ↔ _
      by_cases hmem : next ∈ outs
      · rw [if_pos hmem, List.chain'_cons, ih next]
        rw [houts] at hmem
        tauto
      · rw [if_neg hmem, List.chain'_cons]
        rw [houts] at hmem
        constructor
        · intro hfalse
          exact absurd (Option.some.inj hfalse) (by simp)
        · rintro ⟨hm, -⟩
          exact absurd hm hmem

/-- Lemma: `validate_path` on a nonempty candidate accepts exactly when the
length matches and every consecutive pair is an edge; the uniqueness of
entries plays no role. -/
theorem validate_path_iff (g : TournamentGraph) (path : List Nat)
    (hne : path ≠ []) :
    (g.validate_path path = some true ↔
      path.length = g.nodes.length ∧
      List.Chain' (fun a b => b ∈ g.outOf a) path) := by
  by_cases hlen : path.length = g.nodes.length
  · cases path with
    | nil => exact absurd rfl hne
    | cons c rest =>
      have hred : g.validate_path (c :: rest) = validateGo g c rest := by
        rw [validate_path.eq_def, if_neg (by omega)]
      rw [hred, validateGo_eq_true_iff]
      tauto
  · have hred : g.validate_path path = some false := by
      rw [validate_path.eq_def, if_pos (by omega)]
    rw [hred]
    constructor
    · intro hfalse
      exact absurd (Option.some.inj hfalse) (by simp)
    · rintro ⟨h, -⟩
      exact absurd h hlen

/-! ## Random edge generation -/

/-- Membership description of the randomly drawn edge list. -/
theorem mem_random_edges {n : Nat} {coins : Nat → Bool} {p : Nat × Nat} :
    p ∈ random_edges n coins ↔
      ∃ i, i < n ∧ ∃ j, j < i ∧
        p = (if coins (i * (i - 1) / 2 + j) then (i, j) else (j, i)) := by
  simp only [random_edges, List.mem_flatMap, List.mem_map, List.mem_range]
  constructor
  · rintro ⟨i, hi, j, hj, rfl⟩
    exact ⟨i, hi, j, hj, rfl⟩
  · rintro ⟨i, hi, j, hj, rfl⟩
    exact ⟨i, hi, j, hj, rfl⟩

/-- Either coordinate of a drawn edge is below `n`, and the two
coordinates differ. -/
theorem random_edges_wf {n : Nat} {coins : Nat → Bool} {p : Nat × Nat}
    (h : p ∈ random_edges n coins) : p.1 < n ∧ p.2 < n ∧ p.1 ≠ p.2 := by
  obtain ⟨i, hi, j, hj, rfl⟩ := mem_random_edges.mp h
  split <;> exact ⟨by omega, by omega, by omega⟩

/-- The larger coordinate of a drawn edge names the outer-loop index
that drew it. -/
theorem random_edges_inner_max {i : Nat} {coins : Nat → Bool} {p : Nat × Nat}
    (h : p ∈ (List.range i).map fun j =>
      if coins (i * (i - 1) / 2 + j) then (i, j) else (j, i)) :
    max p.1 p.2 = i := by
  obtain ⟨j, hj, rfl⟩ := List.mem_map.mp h
  rw [List.mem_range] at hj
  split <;> simp [Nat.max_eq_left, Nat.max_eq_right, Nat.le_of_lt hj]

/-- Each unordered pair is drawn exactly once: the edge list has no
duplicates. -/
theorem random_edges_nodup (n : Nat) (coins : Nat → Bool) :
    (random_edges n coins).Nodup := by
  rw [random_edges, List.nodup_flatMap]
  constructor
  · intro i _
    apply List.Nodup.map_on _ (List.nodup_range i)
    intro x hx y hy hxy
    rw [List.mem_range] at hx hy
    revert hxy
    split <;> split <;> intro hxy <;> injection hxy with h1 h2 <;> omega
  · have hp : List.Pairwise (· < ·) (List.range n) := List.pairwise_lt_range n
    refine hp.imp ?_
    intro a b hab p hpa hpb
    have ha := random_edges_inner_max hpa
    have hb := random_edges_inner_max hpb
    omega

/-- The direction drawn for the unordered pair `{i, j}` (`i < j < n`):
edge `(i, j)` on a `false` draw, edge `(j, i)` on a `true` draw; the
draw consulted is draw number `j*(j-1)/2 + i`. -/
theorem random_edges_pair {n i j : Nat} (coins : Nat → Bool)
    (hij : i < j) (hj : j < n) :
    ((i, j) ∈ random_edges n coins ↔ coins (j * (j - 1) / 2 + i) = false) ∧
    ((j, i) ∈ random_edges n coins ↔ coins (j * (j - 1) / 2 + i) = true) := by
  constructor
  · rw [mem_random_edges]
    constructor
    · rintro ⟨a, ha, b, hb, hp⟩
      by_cases hc : coins (a * (a - 1) / 2 + b) = true
      · rw [if_pos hc] at hp
        injection hp with h1 h2
        omega
      · rw [if_neg hc] at hp
        injection hp with h1 h2
        subst h1; subst h2
        simpa using hc
    · intro hc
      exact ⟨j, hj, i, hij, by rw [if_neg (by simp [hc])]⟩
  · rw [mem_random_edges]
    constructor
    · rintro ⟨a, ha, b, hb, hp⟩
      by_cases hc : coins (a * (a - 1) / 2 + b) = true
      · rw [if_pos hc] at hp
        injection hp with h1 h2
        subst h1; subst h2
        exact hc
      · rw [if_neg hc] at hp
        injection hp with h1 h2
        omega
    · intro hc
      exact ⟨j, hj, i, hij, by rw [if_pos hc]⟩

end TournamentGraph

/-! ## PLinkedList: the chain representation -/

/-- Bound extraction from a successful indexed read. -/
theorem lt_of_getElem?_eq_some {α : Type} {l : List α} {i : Nat} {v : α}
    (h : l[i]? = some v) : i < l.length := by
  rw [List.getElem?_eq_some] at h
  exact h.1

/-- Lemma: `getLast?` of a cons with nonempty tail skips the head. -/
theorem getLast?_cons_ne_nil {α : Type} {x : α} {l : List α} (h : l ≠ []) :
    (x :: l).getLast? = l.getLast? := by
  cases l with
  | nil => exact absurd rfl h
  | cons a t => simp [List.getLast?_cons_cons]

/-- Lemma: `head?` of an append with nonempty left part. -/
theorem head?_append_ne_nil {α : Type} {l : List α} (t : List α)
    (h : l ≠ []) : (l ++ t).head? = l.head? := by
  cases l with
  | nil => exact absurd rfl h
  | cons a r => rfl

/-- The witness of `getLast?` is a member. -/
theorem mem_of_getLast?_eq {α : Type} {l : List α} {a : α}
    (h : l.getLast? = some a) : a ∈ l := by
  obtain ⟨hne, h2⟩ := List.mem_getLast?_eq_getLast
    (show a ∈ l.getLast? from h)
  rw [h2]
  exact List.getLast_mem hne

namespace PLinkedList

/-- Ids on a chain are in range of the successor array. -/
theorem mem_lt_of_chainedB {links : List (Option Nat)} :
    ∀ {path : List Nat}, chainedB links path = true →
      ∀ x ∈ path, x < links.length
  | [], _, x, hx => absurd hx (List.not_mem_nil _)
  | [a], h, x, hx => by
    simp only [chainedB, beq_iff_eq] at h
    rcases List.mem_singleton.mp hx with rfl
    exact lt_of_getElem?_eq_some h
  | a :: b :: rest, h, x, hx => by
    simp only [chainedB, Bool.and_eq_true, beq_iff_eq] at h
    rcases List.mem_cons.mp hx with rfl | hx2
    · exact lt_of_getElem?_eq_some h.1
    · exact mem_lt_of_chainedB h.2 x hx2

/-- The tail of a chain links to `None`. -/
theorem chainedB_last_none {links : List (Option Nat)} :
    ∀ {path : List Nat} {t : Nat}, chainedB links path = true →
      path.getLast? = some t → links[t]? = some none
  | [], _, _, hlast => Option.noConfusion hlast
  | [a], t, h, hlast => by
    simp only [chainedB, beq_iff_eq] at h
    rw [List.getLast?_singleton] at hlast
    rw [← Option.some.inj hlast]
    exact h
  | a :: b :: rest, t, h, hlast => by
    simp only [chainedB, Bool.and_eq_true] at h
    rw [getLast?_cons_ne_nil (List.cons_ne_nil _ _)] at hlast
    exact chainedB_last_none h.2 hlast

/-- Writing off-chain slots does not disturb the chain. -/
theorem chainedB_set_not_mem {links : List (Option Nat)} {v : Option Nat} :
    ∀ {path : List Nat} {x : Nat}, x ∉ path →
      chainedB (links.set x v) path = chainedB links path
  | [], _, _ => rfl
  | [a], x, hx => by
    have hxa : x ≠ a := fun h => hx (h ▸ List.mem_singleton_self a)
    simp only [chainedB, List.getElem?_set_ne hxa]
  | a :: b :: rest, x, hx => by
    have hxa : x ≠ a := fun h => hx (h ▸ List.mem_cons_self _ _)
    have hx2 : x ∉ b :: rest := fun h => hx (List.mem_cons_of_mem _ h)
    simp only [chainedB, List.getElem?_set_ne hxa,
      chainedB_set_not_mem hx2]

/-- Exhausted cursor: the iterator is done whatever the fuel. -/
theorem iterFrom_none (links : List (Option Nat)) (fuel : Nat) :
    iterFrom links fuel none = some [] := by
  cases fuel <;> rfl

/-- Following the links from the head of a chain collects exactly the
chain, provided the fuel exceeds its length. -/
theorem iterFrom_chain {links : List (Option Nat)} :
    ∀ (rest : List Nat) (a fuel : Nat),
      chainedB links (a :: rest) = true → rest.length < fuel →
      iterFrom links fuel (some a) = some (a :: rest)
  | _, _, 0, _, hf => absurd hf (Nat.not_lt_zero _)
  | [], a, fuel + 1, h, _ => by
    simp only [chainedB, beq_iff_eq] at h
    simp only [iterFrom, h, iterFrom_none, Option.map]
  | b :: rest2, a, fuel + 1, h, hf => by
    simp only [chainedB, Bool.and_eq_true, beq_iff_eq] at h
    have hrec := iterFrom_chain rest2 b fuel h.2 (by
      simpa using Nat.lt_of_succ_lt_succ hf)
    simp only [iterFrom, h.1, hrec, Option.map]

/-- A duplicate-free list of ids below `L` has at most `L` elements. -/
theorem length_le_of_nodup_lt {path : List Nat} {L : Nat}
    (hN : path.Nodup) (hlt : ∀ x ∈ path, x < L) : path.length ≤ L := by
  have h1 : path.toFinset.card = path.length :=
    List.toFinset_card_of_nodup hN
  have h2 : path.toFinset ⊆ Finset.range L := by
    intro x hx
    rw [List.mem_toFinset] at hx
    exact Finset.mem_range.mpr (hlt x hx)
  have := Finset.card_le_card h2
  rw [h1, Finset.card_range] at this
  exact this

/-- Under the invariant, collecting the iterator terminates and yields
the chain. -/
theorem iterList_of_LInv {l : PLinkedList} {path : List Nat}
    (hI : LInv l path) : l.iterList = some path := by
  obtain ⟨hne, hN, hhead, _hlast, hch, _hun⟩ := hI
  cases path with
  | nil => exact absurd rfl hne
  | cons a rest =>
    have ha : a = l.first := Option.some.inj hhead
    have hlen : rest.length < l.links.length + 1 := by
      have := length_le_of_nodup_lt hN (mem_lt_of_chainedB hch)
      simp only [List.length_cons] at this
      omega
    rw [iterList, ← ha]
    exact iterFrom_chain rest a (l.links.length + 1) hch hlen

/-! ## PLinkedList: the three insertions -/

/-- Lemma: `insert_at_start` on a fresh in-range id prepends it to the chain. -/
theorem insert_at_start_LInv {l : PLinkedList} {path : List Nat} {x : Nat}
    (hI : LInv l path) (hx : x < l.links.length) (hxp : x ∉ path) :
    ∃ l2, l.insert_at_start x = some l2 ∧
      l2.links.length = l.links.length ∧
      l2.first = x ∧ l2.last = l.last ∧
      LInv l2 (x :: path) := by
  obtain ⟨hne, hN, hhead, hlast, hch, hun⟩ := hI
  refine ⟨⟨x, l.last, l.links.set x (some l.first)⟩,
    by rw [insert_at_start, if_pos hx], by simp, rfl, rfl,
    List.cons_ne_nil _ _, List.nodup_cons.mpr ⟨hxp, hN⟩, rfl, ?_, ?_, ?_⟩
  · show (x :: path).getLast? = some l.last
    rw [getLast?_cons_ne_nil hne]
    exact hlast
  · show chainedB (l.links.set x (some l.first)) (x :: path) = true
    cases path with
    | nil => exact absurd rfl hne
    | cons p rest =>
      have hp : p = l.first := Option.some.inj hhead
      simp only [chainedB, Bool.and_eq_true, beq_iff_eq]
      exact ⟨by rw [List.getElem?_set_eq_of_lt _ hx, hp],
        by rw [chainedB_set_not_mem hxp]; exact hch⟩
  · intro y hy hyp
    have hyx : y ≠ x := fun h => hyp (h ▸ List.mem_cons_self _ _)
    have hyp2 : y ∉ path := fun h => hyp (List.mem_cons_of_mem _ h)
    show (l.links.set x (some l.first))[y]? = some none
    rw [List.getElem?_set_ne (Ne.symm hyx)]
    exact hun y (by simpa using hy) hyp2

/-- Appending a fresh id after the old tail extends the chain by one. -/
theorem chainedB_append_last {links : List (Option Nat)} :
    ∀ {path : List Nat} {plast x : Nat},
      path.getLast? = some plast → path.Nodup →
      chainedB links path = true → x ∉ path → x < links.length →
      links[x]? = some none →
      chainedB (links.set plast (some x)) (path ++ [x]) = true
  | [], _, _, hlast, _, _, _, _, _ => Option.noConfusion hlast
  | [a], plast, x, hlast, _, hch, hxp, hx, hxnone => by
    rw [List.getLast?_singleton] at hlast
    obtain rfl := Option.some.inj hlast
    simp only [chainedB, beq_iff_eq] at hch
    have ha : a < links.length := lt_of_getElem?_eq_some hch
    have hxa : x ≠ a := fun h => hxp (h ▸ List.mem_singleton_self _)
    show chainedB (links.set a (some x)) [a, x] = true
    simp only [chainedB, Bool.and_eq_true, beq_iff_eq]
    exact ⟨by rw [List.getElem?_set_eq_of_lt _ ha],
      by rw [List.getElem?_set_ne (Ne.symm hxa)]; exact hxnone⟩
  | a :: b :: rest, plast, x, hlast, hN, hch, hxp, hx, hxnone => by
    rw [getLast?_cons_ne_nil (List.cons_ne_nil _ _)] at hlast
    simp only [chainedB, Bool.and_eq_true, beq_iff_eq] at hch
    have hmem : plast ∈ b :: rest := mem_of_getLast?_eq hlast
    have hanb : a ∉ b :: rest := (List.nodup_cons.mp hN).1
    have haplast : a ≠ plast := fun h => hanb (h ▸ hmem)
    have hx2 : x ∉ b :: rest := fun h => hxp (List.mem_cons_of_mem _ h)
    show chainedB _ (a :: ((b :: rest) ++ [x])) = true
    rw [show (b :: rest) ++ [x] = b :: (rest ++ [x]) from rfl]
    simp only [chainedB, Bool.and_eq_true, beq_iff_eq]
    refine ⟨by rw [List.getElem?_set_ne (Ne.symm haplast)]; exact hch.1, ?_⟩
    exact chainedB_append_last hlast (List.nodup_cons.mp hN).2 hch.2 hx2
      hx hxnone

/-- Lemma: `insert_at_end` on a fresh in-range id appends it to the chain. -/
theorem insert_at_end_LInv {l : PLinkedList} {path : List Nat} {x : Nat}
    (hI : LInv l path) (hx : x < l.links.length) (hxp : x ∉ path) :
    ∃ l2, l.insert_at_end x = some l2 ∧
      l2.links.length = l.links.length ∧
      l2.first = l.first ∧ l2.last = x ∧
      LInv l2 (path ++ [x]) := by
  obtain ⟨hne, hN, hhead, hlast, hch, hun⟩ := hI
  have hlastmem : l.last ∈ path := mem_of_getLast?_eq hlast
  have hlastlt : l.last < l.links.length :=
    mem_lt_of_chainedB hch l.last hlastmem
  have hxlast : x ≠ l.last := fun h => hxp (h ▸ hlastmem)
  refine ⟨⟨l.first, x, l.links.set l.last (some x)⟩,
    by rw [insert_at_end, if_pos hlastlt], by simp, rfl, rfl,
    by simp, ?_, ?_, ?_, ?_, ?_⟩
  · rw [List.nodup_append]
    exact ⟨hN, List.nodup_singleton _, by
      intro a ha hax
      rw [List.mem_singleton] at hax
      exact hxp (hax ▸ ha)⟩
  · show (path ++ [x]).head? = some l.first
    rw [head?_append_ne_nil _ hne]
    exact hhead
  · show (path ++ [x]).getLast? = some x
    exact List.getLast?_concat path
  · show chainedB (l.links.set l.last (some x)) (path ++ [x]) = true
    exact chainedB_append_last hlast hN hch hxp hx
      (hun x hx hxp)
  · intro y hy hyp
    have hy1 : y ∉ path := fun h => hyp (List.mem_append_left _ h)
    have hy2 : y ≠ x := fun h => hyp (List.mem_append_right _
      (h ▸ List.mem_singleton_self _))
    have hy3 : y ≠ l.last := fun h => hy1 (h ▸ hlastmem)
    show (l.links.set l.last (some x))[y]? = some none
    rw [List.getElem?_set_ne (Ne.symm hy3)]
    exact hun y (by simpa using hy) hy1


/-! ## PLinkedList: splicing -/

/-- Splicing into a cons keeps the head. -/
theorem spliceAfter_cons_shape (b : Nat) (rest : List Nat) (e x : Nat) :
    ∃ t, spliceAfter (b :: rest) e x = b :: t := by
  by_cases h : b = e <;> simp [spliceAfter, h]

/-- One unfolding step of `spliceAfter` on a cons. -/
theorem spliceAfter_cons_eq (a : Nat) (rest : List Nat) (e x : Nat) :
    spliceAfter (a :: rest) e x =
      if a = e then a :: x :: rest else a :: spliceAfter rest e x := by
  simp only [spliceAfter]

/-- Splicing into a nonempty list stays nonempty. -/
theorem spliceAfter_ne_nil {path : List Nat} (hne : path ≠ []) (e x : Nat) :
    spliceAfter path e x ≠ [] := by
  cases path with
  | nil => exact absurd rfl hne
  | cons b rest =>
    obtain ⟨t, ht⟩ := spliceAfter_cons_shape b rest e x
    rw [ht]
    exact List.cons_ne_nil _ _

/-- Splicing preserves the head. -/
theorem head?_spliceAfter {path : List Nat} (hne : path ≠ []) (e x : Nat) :
    (spliceAfter path e x).head? = path.head? := by
  cases path with
  | nil => exact absurd rfl hne
  | cons b rest =>
    obtain ⟨t, ht⟩ := spliceAfter_cons_shape b rest e x
    rw [ht]
    rfl

/-- Members of the spliced list: the old members plus the new id. -/
theorem mem_spliceAfter {e x : Nat} :
    ∀ {path : List Nat}, e ∈ path →
      ∀ y, (y ∈ spliceAfter path e x ↔ y ∈ path ∨ y = x)
  | [], he, _ => absurd he (List.not_mem_nil _)
  | a :: rest, he, y => by
    by_cases hae : a = e
    · simp only [spliceAfter, if_pos hae, List.mem_cons]
      tauto
    · have he2 : e ∈ rest := by
        rcases List.mem_cons.mp he with h | h
        · exact absurd h.symm hae
        · exact h
      simp only [spliceAfter, if_neg hae, List.mem_cons,
        mem_spliceAfter he2 y]
      tauto

/-- Splicing a fresh id preserves duplicate-freedom. -/
theorem nodup_spliceAfter {x : Nat} :
    ∀ {path : List Nat} {e : Nat}, path.Nodup → x ∉ path → e ∈ path →
      (spliceAfter path e x).Nodup
  | [], e, _, _, he => absurd he (List.not_mem_nil _)
  | a :: rest, e, hN, hxp, he => by
    obtain ⟨hanr, hNr⟩ := List.nodup_cons.mp hN
    have hax : a ≠ x := fun h => hxp (by rw [← h]; exact List.mem_cons_self _ _)
    by_cases hae : a = e
    · simp only [spliceAfter, if_pos hae]
      rw [List.nodup_cons, List.nodup_cons]
      refine ⟨?_, fun h => hxp (List.mem_cons_of_mem _ h), hNr⟩
      intro hmem
      rcases List.mem_cons.mp hmem with h | h
      · exact hax h
      · exact hanr h
    · have he2 : e ∈ rest := by
        rcases List.mem_cons.mp he with h | h
        · exact absurd h.symm hae
        · exact h
      simp only [spliceAfter, if_neg hae]
      rw [List.nodup_cons]
      refine ⟨?_, nodup_spliceAfter hNr
        (fun h => hxp (List.mem_cons_of_mem _ h)) he2⟩
      intro hmem
      rcases (mem_spliceAfter he2 a).mp hmem with h | h
      · exact hanr h
      · exact hax h

/-- Splicing after the tail moves the tail to the new id; splicing
anywhere else keeps the tail. -/
theorem getLast?_spliceAfter {x : Nat} :
    ∀ {path : List Nat} {e plast : Nat}, path.Nodup → e ∈ path →
      path.getLast? = some plast →
      (spliceAfter path e x).getLast? = some (if e = plast then x else plast)
  | [], e, plast, _, he, _ => absurd he (List.not_mem_nil _)
  | [a], e, plast, _, he, hlast => by
    rw [List.getLast?_singleton] at hlast
    obtain rfl := Option.some.inj hlast
    obtain rfl := List.mem_singleton.mp he
    simp [spliceAfter]
  | a :: b :: rest, e, plast, hN, he, hlast => by
    rw [getLast?_cons_ne_nil (List.cons_ne_nil _ _)] at hlast
    have hmem : plast ∈ b :: rest := mem_of_getLast?_eq hlast
    obtain ⟨hanr, hNr⟩ := List.nodup_cons.mp hN
    by_cases hae : a = e
    · have heplast : e ≠ plast := fun h => hanr (by rw [hae, h]; exact hmem)
      rw [spliceAfter_cons_eq, if_pos hae]
      rw [getLast?_cons_ne_nil (List.cons_ne_nil _ _),
        getLast?_cons_ne_nil (List.cons_ne_nil _ _), hlast, if_neg heplast]
    · have he2 : e ∈ b :: rest := by
        rcases List.mem_cons.mp he with h | h
        · exact absurd h.symm hae
        · exact h
      rw [spliceAfter_cons_eq, if_neg hae]
      rw [getLast?_cons_ne_nil (spliceAfter_ne_nil (List.cons_ne_nil _ _) e x)]
      exact getLast?_spliceAfter hNr he2 hlast

/-- Splicing a fresh id after `e` keeps the chain intact: the new links
run the old chain and divert through the new id right after `e`. -/
theorem chainedB_splice {links : List (Option Nat)} {x : Nat} :
    ∀ {path : List Nat} {e : Nat} {s : Option Nat},
      path.Nodup → chainedB links path = true → e ∈ path → x ∉ path →
      x < links.length → links[e]? = some s →
      chainedB ((links.set e (some x)).set x s) (spliceAfter path e x) = true
  | [], e, s, _, _, he, _, _, _ => absurd he (List.not_mem_nil _)
  | [a], e, s, _, hch, he, hxp, hx, hs => by
    obtain rfl := List.mem_singleton.mp he
    simp only [chainedB, beq_iff_eq] at hch
    rw [hch] at hs
    obtain rfl := Option.some.inj hs
    have ha : e < links.length := lt_of_getElem?_eq_some hch
    have hxa : x ≠ e := fun h => hxp (by rw [← h]; exact List.mem_singleton_self _)
    show chainedB _ (spliceAfter [e] e x) = true
    simp only [spliceAfter, if_pos rfl]
    simp only [chainedB, Bool.and_eq_true, beq_iff_eq]
    constructor
    · rw [List.getElem?_set_ne hxa, List.getElem?_set_eq_of_lt _ ha]
    · rw [List.getElem?_set_eq_of_lt _ (by rw [List.length_set]; exact hx)]
  | a :: b :: rest, e, s, hN, hch, he, hxp, hx, hs => by
    simp only [chainedB, Bool.and_eq_true, beq_iff_eq] at hch
    obtain ⟨hab, hchr⟩ := hch
    obtain ⟨hanr, hNr⟩ := List.nodup_cons.mp hN
    have hxa : x ≠ a := fun h => hxp (by rw [← h]; exact List.mem_cons_self _ _)
    have hx2 : x ∉ b :: rest := fun h => hxp (List.mem_cons_of_mem _ h)
    by_cases hae : a = e
    · subst hae
      rw [hab] at hs
      obtain rfl := Option.some.inj hs
      have ha : a < links.length := lt_of_getElem?_eq_some hab
      show chainedB _ (spliceAfter (a :: b :: rest) a x) = true
      simp only [spliceAfter, if_pos rfl]
      simp only [chainedB, Bool.and_eq_true, beq_iff_eq]
      refine ⟨?_, ?_, ?_⟩
      · rw [List.getElem?_set_ne hxa, List.getElem?_set_eq_of_lt _ ha]
      · rw [List.getElem?_set_eq_of_lt _ (by rw [List.length_set]; exact hx)]
      · rw [chainedB_set_not_mem hx2, chainedB_set_not_mem hanr]
        exact hchr
    · have he2 : e ∈ b :: rest := by
        rcases List.mem_cons.mp he with h | h
        · exact absurd h.symm hae
        · exact h
      have hea : e ≠ a := fun h => hae h.symm
      have hrec := chainedB_splice hNr hchr he2 hx2 hx hs
      show chainedB _ (spliceAfter (a :: b :: rest) e x) = true
      rw [spliceAfter_cons_eq, if_neg hae]
      obtain ⟨t, ht⟩ := spliceAfter_cons_shape b rest e x
      rw [ht]
      rw [ht] at hrec
      simp only [chainedB, Bool.and_eq_true, beq_iff_eq]
      refine ⟨?_, hrec⟩
      rw [List.getElem?_set_ne hxa, List.getElem?_set_ne hea]
      exact hab

/-- Lemma: `insert_after` on a placed id `e` and a fresh in-range id `x`
splices `x` right after `e`: the chain gains `x` at that spot, the head
is unchanged, the tail moves to `x` exactly when `e` was the tail, and
`x` inherits `e`'s former successor. -/
theorem insert_after_LInv {l : PLinkedList} {path : List Nat} {e x : Nat}
    (hI : LInv l path) (he : e ∈ path) (hx : x < l.links.length)
    (hxp : x ∉ path) :
    ∃ l2, l.insert_after e x = some l2 ∧
      l2.links.length = l.links.length ∧
      l2.first = l.first ∧
      l2.last = (if e = l.last then x else l.last) ∧
      l2.get_succ x = l.get_succ e ∧
      l2.get_succ e = some (some x) ∧
      LInv l2 (spliceAfter path e x) := by
  obtain ⟨hne, hN, hhead, hlast, hch, hun⟩ := hI
  have helt : e < l.links.length := mem_lt_of_chainedB hch e he
  have hex : e ≠ x := fun h => hxp (h ▸ he)
  cases hs : l.links[e]? with
  | none =>
    rw [List.getElem?_eq_getElem helt] at hs
    exact Option.noConfusion hs
  | some s =>
    have hx2 : x < (l.links.set e (some x)).length := by
      rw [List.length_set]; exact hx
    refine ⟨⟨l.first, if e = l.last then x else l.last,
        (l.links.set e (some x)).set x s⟩, ?_, by simp, rfl, rfl, ?_, ?_,
        spliceAfter_ne_nil hne e x, nodup_spliceAfter hN hxp he, ?_, ?_,
        chainedB_splice hN hch he hxp hx hs, ?_⟩
    · show l.insert_after e x = _
      simp only [insert_after, hs]
      rw [if_pos hx]
    · show ((l.links.set e (some x)).set x s)[x]? = l.links[e]?
      rw [List.getElem?_set_eq_of_lt _ hx2, hs]
    · show ((l.links.set e (some x)).set x s)[e]? = some (some x)
      rw [List.getElem?_set_ne (Ne.symm hex), List.getElem?_set_eq_of_lt _ helt]
    · show (spliceAfter path e x).head? = some l.first
      rw [head?_spliceAfter hne]
      exact hhead
    · show (spliceAfter path e x).getLast? =
        some (if e = l.last then x else l.last)
      exact getLast?_spliceAfter hN he hlast
    · intro y hy hyp
      have hy1 : y ∉ path := fun h =>
        hyp ((mem_spliceAfter he y).mpr (Or.inl h))
      have hy2 : y ≠ x := fun h =>
        hyp ((mem_spliceAfter he y).mpr (Or.inr h))
      have hy3 : y ≠ e := fun h => hy1 (h ▸ he)
      show ((l.links.set e (some x)).set x s)[y]? = some none
      rw [List.getElem?_set_ne (Ne.symm hy2), List.getElem?_set_ne (Ne.symm hy3)]
      exact hun y (by simpa using hy) hy1

end PLinkedList

/-! ## PLinkedList: reachable states -/

namespace PLinkedList

/-- The freshly created list satisfies the invariant with the single
chain `[first]`. -/
theorem LInv_new {length first : Nat} (h : first < length) :
    LInv (new length first) [first] := by
  refine ⟨List.cons_ne_nil _ _, List.nodup_singleton _, rfl, rfl, ?_, ?_⟩
  · show chainedB (List.replicate length none) [first] = true
    simp only [chainedB, beq_iff_eq]
    simp [List.getElem?_replicate, h]
  · intro y hy _
    show (List.replicate length (none : Option Nat))[y]? = some none
    have hy2 : y < length := by simpa [new] using hy
    simp [List.getElem?_replicate, hy2]

/-- Splicing is, up to reordering, just adding the new id. -/
theorem spliceAfter_perm {x : Nat} :
    ∀ {path : List Nat} {e : Nat}, e ∈ path →
      (spliceAfter path e x).Perm (x :: path)
  | [], e, he => absurd he (List.not_mem_nil _)
  | a :: rest, e, he => by
    by_cases hae : a = e
    · rw [spliceAfter_cons_eq, if_pos hae]
      exact List.Perm.swap x a rest
    · have he2 : e ∈ rest := by
        rcases List.mem_cons.mp he with h | h
        · exact absurd h.symm hae
        · exact h
      rw [spliceAfter_cons_eq, if_neg hae]
      exact ((spliceAfter_perm he2).cons a).trans (List.Perm.swap x a rest)

/-- Every reachable state keeps the invariant: its links spell out a
single duplicate-free chain holding exactly the placed ids. -/
theorem reached_inv : ∀ {length first : Nat} {l : PLinkedList}
    {placed : List Nat}, Reached length first l placed →
    l.links.length = length ∧ ∃ path, LInv l path ∧ path.Perm placed
  | _, _, _, _, .init h1 =>
    ⟨by simp [new], _, LInv_new h1, List.Perm.refl _⟩
  | _, _, _, _, .step_after hr he hx hxp hins => by
    obtain ⟨hlen, path, hI, hperm⟩ := reached_inv hr
    have he2 := hperm.mem_iff.mpr he
    have hxp2 := fun hh => hxp (hperm.mem_iff.mp hh)
    obtain ⟨l2, hins2, hlen2, _, _, _, _, hI2⟩ :=
      insert_after_LInv hI he2 (by omega) hxp2
    rw [hins] at hins2
    obtain rfl := Option.some.inj hins2
    exact ⟨by rw [hlen2, hlen], _, hI2,
      (spliceAfter_perm he2).trans (hperm.cons _)⟩
  | _, _, _, _, .step_start hr hx hxp hins => by
    obtain ⟨hlen, path, hI, hperm⟩ := reached_inv hr
    have hxp2 := fun hh => hxp (hperm.mem_iff.mp hh)
    obtain ⟨l2, hins2, hlen2, _, _, hI2⟩ :=
      insert_at_start_LInv hI (by omega) hxp2
    rw [hins] at hins2
    obtain rfl := Option.some.inj hins2
    exact ⟨by rw [hlen2, hlen], _, hI2, hperm.cons _⟩
  | _, _, _, _, .step_end hr hx hxp hins => by
    obtain ⟨hlen, path, hI, hperm⟩ := reached_inv hr
    have hxp2 := fun hh => hxp (hperm.mem_iff.mp hh)
    obtain ⟨l2, hins2, hlen2, _, _, hI2⟩ :=
      insert_at_end_LInv hI (by omega) hxp2
    rw [hins] at hins2
    obtain rfl := Option.some.inj hins2
    refine ⟨by rw [hlen2, hlen], _, hI2, ?_⟩
    exact (List.perm_append_singleton _ _).trans (hperm.cons _)

end PLinkedList

/-! ## The builder: the insertion-point search -/

namespace HampathBuilder

/-- The code's window scan computes first-match-from-head: it returns
the left component of the first consecutive pair of the path whose
right component lies in `neighs`. -/
theorem search_eq_find? (neighs : List Nat) :
    ∀ path : List Nat, search_for_insert_point neighs path =
      ((path.zip path.tail).find? fun pq =>
        decide (pq.2 ∈ neighs)).map Prod.fst
  | [] => rfl
  | [_] => rfl
  | a :: b :: rest => by
    show (if b ∈ neighs then some a
      else search_for_insert_point neighs (b :: rest)) = _
    rw [show (a :: b :: rest).zip (a :: b :: rest).tail =
      (a, b) :: ((b :: rest).zip (b :: rest).tail) from rfl]
    by_cases hb : b ∈ neighs
    · rw [if_pos hb, List.find?_cons_of_pos _ (by simpa using hb)]
      rfl
    · rw [if_neg hb, List.find?_cons_of_neg _ (by simpa using hb)]
      exact search_eq_find? neighs (b :: rest)

/-- If the head of the path is not a neighbour but the tail is, the
window scan finds an insertion point. -/
theorem search_succeeds (neighs : List Nat) :
    ∀ (rest : List Nat) (a : Nat), a ∉ neighs →
      ∀ t, (a :: rest).getLast? = some t → t ∈ neighs →
      ∃ p, search_for_insert_point neighs (a :: rest) = some p
  | [], a, ha, t, hlast, ht => by
    rw [List.getLast?_singleton] at hlast
    obtain rfl := Option.some.inj hlast
    exact absurd ht ha
  | b :: rest, a, ha, t, hlast, ht => by
    by_cases hb : b ∈ neighs
    · exact ⟨a, by
        show (if b ∈ neighs then some a
          else search_for_insert_point neighs (b :: rest)) = some a
        rw [if_pos hb]⟩
    · rw [getLast?_cons_ne_nil (List.cons_ne_nil _ _)] at hlast
      obtain ⟨p, hp⟩ := search_succeeds neighs rest b hb t hlast ht
      exact ⟨p, by
        show (if b ∈ neighs then some a
          else search_for_insert_point neighs (b :: rest)) = some p
        rw [if_neg hb]
        exact hp⟩

/-- A successful scan (with a non-neighbour head) decomposes the path
around a transition window: the returned id is immediately followed by
a neighbour, and is itself not a neighbour. -/
theorem search_decomp (neighs : List Nat) :
    ∀ (rest : List Nat) (a p : Nat), a ∉ neighs →
      search_for_insert_point neighs (a :: rest) = some p →
      ∃ pre q suf, a :: rest = pre ++ p :: q :: suf ∧ q ∈ neighs ∧
        p ∉ neighs
  | [], a, p, _, h => Option.noConfusion h
  | b :: rest, a, p, ha, h => by
    rw [show search_for_insert_point neighs (a :: b :: rest) =
      (if b ∈ neighs then some a
        else search_for_insert_point neighs (b :: rest)) from rfl] at h
    by_cases hb : b ∈ neighs
    · rw [if_pos hb] at h
      obtain rfl := Option.some.inj h
      exact ⟨[], b, rest, rfl, hb, ha⟩
    · rw [if_neg hb] at h
      obtain ⟨pre, q, suf, heq, hq, hp⟩ := search_decomp neighs rest b p hb h
      exact ⟨a :: pre, q, suf, by rw [List.cons_append, ← heq], hq, hp⟩

end HampathBuilder

/-- Inserting a node between an adjacent pair of a chain preserves the
chain when it relates to both sides. -/
theorem chain'_insert_mid {R : Nat → Nat → Prop}
    (pre : List Nat) (p m q : Nat) (suf : List Nat)
    (hch : List.Chain' R (pre ++ p :: q :: suf)) (hpm : R p m)
    (hmq : R m q) : List.Chain' R (pre ++ p :: m :: q :: suf) := by
  rw [List.chain'_append] at hch ⊢
  obtain ⟨h1, h2, h3⟩ := hch
  rw [List.chain'_cons] at h2
  refine ⟨h1, ?_, ?_⟩
  · rw [List.chain'_cons, List.chain'_cons]
    exact ⟨hpm, hmq, h2.2⟩
  · intro x hx y hy
    exact h3 x hx y hy

namespace PLinkedList

/-- Splicing after the first element of the marked window inserts the
new id exactly between the window's two elements. -/
theorem spliceAfter_decomp {p m : Nat} :
    ∀ (pre tail : List Nat), p ∉ pre →
      spliceAfter (pre ++ p :: tail) p m = pre ++ p :: m :: tail
  | [], tail, _ => by
    rw [List.nil_append, spliceAfter_cons_eq, if_pos rfl, List.nil_append]
  | a :: pre, tail, hp => by
    have hap : a ≠ p := fun h => hp (by rw [← h]; exact List.mem_cons_self _ _)
    rw [List.cons_append, spliceAfter_cons_eq, if_neg hap,
      spliceAfter_decomp pre tail (fun h => hp (List.mem_cons_of_mem _ h)),
      List.cons_append]

end PLinkedList

namespace TournamentGraph

/-- In-range node lookup returns the out-neighbour list. -/
theorem nodes_getElem? {g : TournamentGraph} {m : Nat}
    (hm : m < g.nodes.length) : g.nodes[m]? = some (g.outOf m) := by
  rw [List.getElem?_eq_getElem hm, outOf, List.getD_eq_getElem?_getD,
    List.getElem?_eq_getElem hm]
  rfl

end TournamentGraph

namespace HampathBuilder

/-- Reduction of one `extend` call once the assert has passed and both
node lookups are known. -/
theorem extend_reduce {b : HampathBuilder} {m : Nat} {outm outl : List Nat}
    (hm : m < b.num_nodes)
    (h1 : b.graph.nodes[m]? = some outm)
    (h2 : b.graph.nodes[b.cur_path.last]? = some outl) :
    b.extend m =
      (if b.cur_path.first ∈ outm then b.cur_path.insert_at_start m
      else if m ∈ outl then b.cur_path.insert_at_end m
      else match b.cur_path.iterList with
        | none => none
        | some path =>
          match search_for_insert_point outm path with
          | none => none
          | some i => b.cur_path.insert_after i m) := by
  simp only [extend, h1, h2]
  rw [if_pos hm]

/-- One `extend` step preserves the whole invariant: given a valid
tournament and a chained Hamiltonian path over `0..m-1`, extending with
`m` succeeds and yields a chained Hamiltonian path over `0..m`. -/
theorem extend_step {g : TournamentGraph} {b : HampathBuilder}
    {path : List Nat} {m : Nat}
    (hg : b.graph = g) (hn : b.num_nodes = g.nodes.length)
    (hval : g.is_valid_tournament_graph = true)
    (hI : PLinkedList.LInv b.cur_path path)
    (hlen : b.cur_path.links.length = g.nodes.length)
    (hchain : List.Chain' (fun a c => c ∈ g.outOf a) path)
    (hmem : ∀ x, x ∈ path ↔ x < m)
    (hm : m < g.nodes.length) :
    ∃ pll2, b.extend m = some pll2 ∧
      pll2.links.length = g.nodes.length ∧
      ∃ path2, PLinkedList.LInv pll2 path2 ∧
        List.Chain' (fun a c => c ∈ g.outOf a) path2 ∧
        (∀ x, x ∈ path2 ↔ x < m + 1) := by
  obtain ⟨hne, hN, hhead, hlast, hch, hun⟩ := hI
  have hI2 : PLinkedList.LInv b.cur_path path :=
    ⟨hne, hN, hhead, hlast, hch, hun⟩
  have hmnotin : m ∉ path := fun h => absurd ((hmem m).mp h) (lt_irrefl m)
  have hpathlt : ∀ x ∈ path, x < g.nodes.length :=
    fun x hx => lt_trans ((hmem x).mp hx) hm
  have hlastmem : b.cur_path.last ∈ path := mem_of_getLast?_eq hlast
  have hlastlt : b.cur_path.last < g.nodes.length := hpathlt _ hlastmem
  have hm' : m < b.num_nodes := by rw [hn]; exact hm
  have hnodesm : b.graph.nodes[m]? = some (g.outOf m) := by
    rw [hg]; exact TournamentGraph.nodes_getElem? hm
  have hnodelast : b.graph.nodes[b.cur_path.last]? =
      some (g.outOf b.cur_path.last) := by
    rw [hg]; exact TournamentGraph.nodes_getElem? hlastlt
  by_cases h1 : b.cur_path.first ∈ g.outOf m
  · obtain ⟨l2, hins, hlen2, _, _, hI3⟩ :=
      PLinkedList.insert_at_start_LInv hI2 (by omega) hmnotin
    refine ⟨l2, ?_, by rw [hlen2, hlen], m :: path, hI3, ?_, ?_⟩
    · rw [extend_reduce hm' hnodesm hnodelast, if_pos h1]
      exact hins
    · rw [List.chain'_cons']
      refine ⟨?_, hchain⟩
      intro c hc
      rw [hhead] at hc
      have : b.cur_path.first = c := by simpa using hc
      rw [← this]
      exact h1
    · intro x
      rw [List.mem_cons, hmem x]
      omega
  · by_cases h2 : m ∈ g.outOf b.cur_path.last
    · obtain ⟨l2, hins, hlen2, _, _, hI3⟩ :=
        PLinkedList.insert_at_end_LInv hI2 (by omega) hmnotin
      refine ⟨l2, ?_, by rw [hlen2, hlen], path ++ [m], hI3, ?_, ?_⟩
      · rw [extend_reduce hm' hnodesm hnodelast, if_neg h1, if_pos h2]
        exact hins
      · rw [List.chain'_append]
        refine ⟨hchain, List.chain'_singleton _, ?_⟩
        intro x hx y hy
        rw [hlast] at hx
        have hx2 : b.cur_path.last = x := by simpa using hx
        have hy2 : m = y := by simpa using hy
        rw [← hx2, ← hy2]
        exact h2
      · intro x
        rw [List.mem_append, hmem x, List.mem_singleton]
        omega
    · have hlastltm : b.cur_path.last < m := (hmem _).mp hlastmem
      have hlastout : b.cur_path.last ∈ g.outOf m :=
        (TournamentGraph.valid_total hval hm hlastlt
          (by omega : m ≠ b.cur_path.last)).mpr h2
      have hiter : b.cur_path.iterList = some path :=
        PLinkedList.iterList_of_LInv hI2
      cases path with
      | nil => exact absurd rfl hne
      | cons a rest =>
        have ha : a = b.cur_path.first := by simpa using hhead
        have hanot : a ∉ g.outOf m := by rw [ha]; exact h1
        obtain ⟨p, hp⟩ := search_succeeds (g.outOf m) rest a hanot
          b.cur_path.last hlast hlastout
        obtain ⟨pre, q, suf, heq, hq, hpnot⟩ :=
          search_decomp (g.outOf m) rest a p hanot hp
        have hpmem : p ∈ a :: rest := by
          rw [heq]
          exact List.mem_append_right _ (List.mem_cons_self _ _)
        obtain ⟨l2, hins, hlen2, _, _, _, _, hI3⟩ :=
          PLinkedList.insert_after_LInv hI2 hpmem (by omega) hmnotin
        have hpnotpre : p ∉ pre := by
          have hN2 := hN
          rw [heq, List.nodup_append] at hN2
          intro hpp
          exact hN2.2.2 hpp (List.mem_cons_self _ _)
        have hsplice : PLinkedList.spliceAfter (a :: rest) p m =
            pre ++ p :: m :: q :: suf := by
          rw [heq]
          exact PLinkedList.spliceAfter_decomp pre (q :: suf) hpnotpre
        refine ⟨l2, ?_, by rw [hlen2, hlen],
          PLinkedList.spliceAfter (a :: rest) p m, hI3, ?_, ?_⟩
        · rw [extend_reduce hm' hnodesm hnodelast, if_neg h1, if_neg h2,
            hiter]
          show (match search_for_insert_point (g.outOf m) (a :: rest) with
            | none => none
            | some i => b.cur_path.insert_after i m) = some l2
          rw [hp]
          exact hins
        · rw [hsplice]
          refine chain'_insert_mid pre p m q suf
            (by rw [heq] at hchain; exact hchain) ?_ hq
          have hplt : p < g.nodes.length := hpathlt _ hpmem
          have hpm : p ≠ m := fun h => hmnotin (h ▸ hpmem)
          exact (TournamentGraph.valid_total hval hplt hm hpm).mpr hpnot
        · intro x
          rw [PLinkedList.mem_spliceAfter hpmem x, hmem x]
          omega

end HampathBuilder

/-- A duplicate-free list whose members are exactly `0..n-1` is a
permutation of `range n`. -/
theorem perm_range_of_mem_iff {path : List Nat} {n : Nat} (hN : path.Nodup)
    (hmem : ∀ x, x ∈ path ↔ x < n) : path.Perm (List.range n) := by
  refine List.perm_of_nodup_nodup_toFinset_eq hN (List.nodup_range n) ?_
  ext x
  rw [List.mem_toFinset, List.mem_toFinset, List.mem_range, hmem x]

namespace HampathBuilder

/-- The while-loop of `solve_path`, `j` iterations at a time: starting
from an invariant state holding `0..last_node`, it runs to completion
and holds `0..last_node + j`. -/
theorem solveSteps_inv {g : TournamentGraph}
    (hval : g.is_valid_tournament_graph = true) :
    ∀ (j : Nat) (b : HampathBuilder) (path : List Nat),
      b.graph = g → b.num_nodes = g.nodes.length →
      PLinkedList.LInv b.cur_path path →
      b.cur_path.links.length = g.nodes.length →
      List.Chain' (fun a c => c ∈ g.outOf a) path →
      (∀ x, x ∈ path ↔ x < b.last_node + 1) →
      b.last_node + 1 + j ≤ g.nodes.length →
      ∃ b2 path2, solveSteps b j = some b2 ∧ b2.graph = g ∧
        b2.num_nodes = b.num_nodes ∧ b2.last_node = b.last_node + j ∧
        PLinkedList.LInv b2.cur_path path2 ∧
        b2.cur_path.links.length = g.nodes.length ∧
        List.Chain' (fun a c => c ∈ g.outOf a) path2 ∧
        (∀ x, x ∈ path2 ↔ x < b.last_node + j + 1)
  | 0, b, path, hg, _, hI, hlen, hchain, hmem, _ =>
    ⟨b, path, rfl, hg, rfl, rfl, hI, hlen, hchain, fun x => by
      rw [hmem x]⟩
  | j + 1, b, path, hg, hn, hI, hlen, hchain, hmem, hbound => by
    have hm : b.last_node + 1 < g.nodes.length := by omega
    obtain ⟨pll2, hext, hlen2, path2, hI2, hchain2, hmem2⟩ :=
      extend_step hg hn hval hI hlen hchain hmem hm
    obtain ⟨b2, path3, hsolve, hg2, hn2, hlast2, hI3, hlen3, hchain3,
        hmem3⟩ :=
      solveSteps_inv hval j
        { b with cur_path := pll2, last_node := b.last_node + 1 }
        path2 hg hn hI2 hlen2 hchain2 hmem2
        (by show b.last_node + 1 + 1 + j ≤ g.nodes.length; omega)
    refine ⟨b2, path3, ?_, hg2, hn2, ?_, hI3, hlen3, hchain3, ?_⟩
    · show (match b.extend (b.last_node + 1) with
        | none => none
        | some p =>
          solveSteps { b with cur_path := p, last_node := b.last_node + 1 }
            j) = some b2
      rw [hext]
      exact hsolve
    · have : b2.last_node = b.last_node + 1 + j := hlast2
      omega
    · intro x
      rw [hmem3 x]
      show x < b.last_node + 1 + j + 1 ↔ _
      omega

end HampathBuilder

/-! ## Claim theorems -/

/-- C1: for every `n ≥ 1` and every valid tournament graph on `n`
nodes, `solve_path` returns a sequence of exactly `n` NodeIDs in which
each NodeID in `[0, n)` appears exactly once, `validate_path` accepts
it, and `solution_pair` returns it together with the graph. -/
theorem c1_solve_path_correct (g : TournamentGraph)
    (hval : g.is_valid_tournament_graph = true)
    (hn : 1 ≤ g.nodes.length) :
    ∃ p : List Nat, (HampathBuilder.init g).solve_path = some p ∧
      p.length = g.nodes.length ∧
      (∀ x, x < g.nodes.length → p.count x = 1) ∧
      g.validate_path p = some true ∧
      (HampathBuilder.init g).solution_pair = some (p, g) := by
  have hI0 : PLinkedList.LInv (PLinkedList.new g.nodes.length 0) [0] :=
    PLinkedList.LInv_new hn
  obtain ⟨b2, path2, hsolve, _, _, _, hI3, _, hchain3, hmem3⟩ :=
    HampathBuilder.solveSteps_inv hval (g.nodes.length - 1)
      (HampathBuilder.init g) [0] rfl rfl hI0
      (by simp [HampathBuilder.init, PLinkedList.new])
      (List.chain'_singleton 0)
      (fun x => by
        show x ∈ [0] ↔ x < 0 + 1
        rw [List.mem_singleton]
        omega)
      (by show 0 + 1 + (g.nodes.length - 1) ≤ g.nodes.length; omega)
  have hmemn : ∀ x, x ∈ path2 ↔ x < g.nodes.length := fun x => by
    rw [hmem3 x]
    show x < 0 + (g.nodes.length - 1) + 1 ↔ _
    omega
  have hperm : path2.Perm (List.range g.nodes.length) :=
    perm_range_of_mem_iff hI3.2.1 hmemn
  have hplen : path2.length = g.nodes.length := by
    rw [hperm.length_eq, List.length_range]
  have hiter : b2.cur_path.iterList = some path2 :=
    PLinkedList.iterList_of_LInv hI3
  have hsolvepath : (HampathBuilder.init g).solve_path = some path2 := by
    show (match HampathBuilder.solveSteps (HampathBuilder.init g)
        (g.nodes.length - 1) with
      | none => none
      | some b3 => b3.cur_path.iterList) = some path2
    rw [hsolve]
    exact hiter
  refine ⟨path2, hsolvepath, hplen, ?_, ?_, ?_⟩
  · intro x hx
    exact List.count_eq_one_of_mem hI3.2.1 ((hmemn x).mpr hx)
  · rw [TournamentGraph.validate_path_iff g path2 hI3.1]
    exact ⟨hplen, hchain3⟩
  · rw [HampathBuilder.solution_pair, hsolvepath]
    rfl

/-- Witness for C1 at a concrete two-node tournament. -/
theorem c1_solve_path_correct_witness :
    ∃ p : List Nat,
      (HampathBuilder.init (TournamentGraph.mk [[1], []])).solve_path
        = some p ∧
      p.length = (TournamentGraph.mk [[1], []]).nodes.length ∧
      (∀ x, x < (TournamentGraph.mk [[1], []]).nodes.length →
        p.count x = 1) ∧
      (TournamentGraph.mk [[1], []]).validate_path p = some true ∧
      (HampathBuilder.init (TournamentGraph.mk [[1], []])).solution_pair
        = some (p, TournamentGraph.mk [[1], []]) :=
  c1_solve_path_correct (TournamentGraph.mk [[1], []]) (by decide)
    (by decide)

/-- C2: each extension step follows exactly the specified priority
order — prepend when there is an edge `k → head`, else append when
there is an edge `tail → k`, else insert after the first consecutive
pair `(prev, next)` (scanning from the head) with an edge `k → next`. -/
theorem c2_extend_follows_priority (g : TournamentGraph)
    (n ln k : Nat) (pll : PLinkedList) (hkn : k < n)
    (hk : k < g.nodes.length) (hlast : pll.last < g.nodes.length) :
    HampathBuilder.extend ⟨n, ln, pll, g⟩ k =
      HampathBuilder.extendSpec g pll k := by
  rw [HampathBuilder.extend_reduce (b := ⟨n, ln, pll, g⟩) hkn
    (TournamentGraph.nodes_getElem? hk)
    (TournamentGraph.nodes_getElem? hlast),
    HampathBuilder.extendSpec]
  by_cases h1 : pll.first ∈ g.outOf k
  · rw [if_pos h1, if_pos h1]
  · rw [if_neg h1, if_neg h1]
    by_cases h2 : k ∈ g.outOf pll.last
    · rw [if_pos h2, if_pos h2]
    · rw [if_neg h2, if_neg h2]
      cases hiter : pll.iterList with
      | none => rfl
      | some path =>
        show (match HampathBuilder.search_for_insert_point
            (g.outOf k) path with
          | none => none
          | some i => pll.insert_after i k) =
          (match (path.zip path.tail).find?
              (fun pq => decide (pq.2 ∈ g.outOf k)) with
          | some pq => pll.insert_after pq.1 k
          | none => none)
        rw [HampathBuilder.search_eq_find?]
        cases (path.zip path.tail).find?
            (fun pq => decide (pq.2 ∈ g.outOf k)) with
        | none => rfl
        | some pq => rfl

/-- Witness for C2 at a concrete step. -/
theorem c2_extend_follows_priority_witness :
    HampathBuilder.extend
        ⟨2, 0, PLinkedList.new 2 0, TournamentGraph.mk [[1], []]⟩ 1 =
      HampathBuilder.extendSpec (TournamentGraph.mk [[1], []])
        (PLinkedList.new 2 0) 1 :=
  c2_extend_follows_priority (TournamentGraph.mk [[1], []]) 2 0 1
    (PLinkedList.new 2 0) (by decide) (by decide) (by decide)

/-- C3: for a valid tournament with the current path a Hamiltonian path
over `0..k-1`, when neither boundary case applies the interior scan
always finds a transition pair, so the panic branch of
`search_for_insert_point` is unreachable. -/
theorem c3_interior_scan_total (g : TournamentGraph)
    (hval : g.is_valid_tournament_graph = true)
    (path : List Nat) (k : Nat)
    (hmem : ∀ x, x ∈ path ↔ x < k)
    (hN : path.Nodup)
    (hchain : List.Chain' (fun a c => c ∈ g.outOf a) path)
    (hk1 : 1 ≤ k) (hk : k < g.nodes.length)
    (hhead : ∀ h0 ∈ path.head?, h0 ∉ g.outOf k)
    (htail : ∀ t ∈ path.getLast?, k ∉ g.outOf t) :
    ∃ p, HampathBuilder.search_for_insert_point (g.outOf k) path
      = some p := by
  have h0 : 0 ∈ path := (hmem 0).mpr hk1
  cases path with
  | nil => exact absurd h0 (List.not_mem_nil _)
  | cons a rest =>
    have ha : a ∉ g.outOf k := hhead a rfl
    obtain ⟨t, hlastt⟩ : ∃ t, (a :: rest).getLast? = some t :=
      ⟨_, List.getLast?_eq_getLast_of_ne_nil (List.cons_ne_nil _ _)⟩
    have htmem : t ∈ a :: rest := mem_of_getLast?_eq hlastt
    have htk : t < k := (hmem t).mp htmem
    have htn : t < g.nodes.length := lt_trans htk hk
    have htout : t ∈ g.outOf k :=
      (TournamentGraph.valid_total hval hk htn (by omega)).mpr
        (htail t hlastt)
    exact HampathBuilder.search_succeeds (g.outOf k) rest a ha t hlastt
      htout

/-- Witness for C3 at a concrete interior step. -/
theorem c3_interior_scan_total_witness :
    ∃ p, HampathBuilder.search_for_insert_point
      ((TournamentGraph.mk [[1, 2], [], [1]]).outOf 2) [0, 1]
      = some p :=
  c3_interior_scan_total (TournamentGraph.mk [[1, 2], [], [1]])
    (by decide) [0, 1] 2 (fun x => by
      rw [List.mem_cons, List.mem_singleton]
      omega)
    (by decide)
    (by
      rw [List.chain'_cons]
      exact ⟨by decide, List.chain'_singleton _⟩)
    (by decide) (by decide)
    (by intro h0 hh; obtain rfl := Option.some.inj hh; decide)
    (by intro t ht; obtain rfl := Option.some.inj ht; decide)

/-- C4: for a valid tournament on `n` nodes, after the `extend` step
inserting node `k` (for `k = 1..n-1`) the sequence is a valid
Hamiltonian path over `0..k`: it holds exactly the NodeIDs `0..k`,
each exactly once, and every consecutive pair is an edge. -/
theorem c4_step_invariant (g : TournamentGraph)
    (hval : g.is_valid_tournament_graph = true)
    (k : Nat) (hk1 : 1 ≤ k) (hk : k < g.nodes.length) :
    ∃ b2 path2,
      HampathBuilder.solveSteps (HampathBuilder.init g) k = some b2 ∧
      b2.cur_path.iterList = some path2 ∧
      path2.Nodup ∧
      (∀ x, x ∈ path2 ↔ x ≤ k) ∧
      (∀ x, x ≤ k → path2.count x = 1) ∧
      List.Chain' (fun a c => c ∈ g.outOf a) path2 := by
  have hI0 : PLinkedList.LInv (PLinkedList.new g.nodes.length 0) [0] :=
    PLinkedList.LInv_new (by omega)
  obtain ⟨b2, path2, hsolve, _, _, _, hI3, _, hchain3, hmem3⟩ :=
    HampathBuilder.solveSteps_inv hval k (HampathBuilder.init g) [0]
      rfl rfl hI0 (by simp [HampathBuilder.init, PLinkedList.new])
      (List.chain'_singleton 0)
      (fun x => by
        show x ∈ [0] ↔ x < 0 + 1
        rw [List.mem_singleton]
        omega)
      (by show 0 + 1 + k ≤ g.nodes.length; omega)
  have hmemk : ∀ x, x ∈ path2 ↔ x ≤ k := fun x => by
    rw [hmem3 x]
    show x < 0 + k + 1 ↔ _
    omega
  exact ⟨b2, path2, hsolve, PLinkedList.iterList_of_LInv hI3, hI3.2.1,
    hmemk, fun x hx =>
      List.count_eq_one_of_mem hI3.2.1 ((hmemk x).mpr hx), hchain3⟩

/-- Witness for C4 at a concrete step. -/
theorem c4_step_invariant_witness :
    ∃ b2 path2,
      HampathBuilder.solveSteps
        (HampathBuilder.init (TournamentGraph.mk [[1], []])) 1
        = some b2 ∧
      b2.cur_path.iterList = some path2 ∧
      path2.Nodup ∧
      (∀ x, x ∈ path2 ↔ x ≤ 1) ∧
      (∀ x, x ≤ 1 → path2.count x = 1) ∧
      List.Chain' (fun a c =>
        c ∈ (TournamentGraph.mk [[1], []]).outOf a) path2 :=
  c4_step_invariant (TournamentGraph.mk [[1], []]) (by decide) 1
    (by decide) (by decide)

/-- C5 (amended): for an in-range, self-edge-free edge list with some
pair `{i, j}` having both directions or neither, `TournamentGraph::new`
returns `None` (a validation error) and no graph.  (As the
counterexample shows, a list containing a self-edge instead aborts with
a panic before any validation result.) -/
theorem c5_new_rejects_bad_pairs (n : Nat) (edges : List (Nat × Nat))
    (hwf : ∀ p ∈ edges, p.1 < n ∧ p.2 < n ∧ p.1 ≠ p.2)
    (i j : Nat) (hij : i < j) (hj : j < n)
    (hbad : ((i, j) ∈ edges ↔ (j, i) ∈ edges)) :
    TournamentGraph.new n edges = .ok none := by
  obtain ⟨g, hg, hlen, hchar⟩ := TournamentGraph.new_unchecked_ok n edges hwf
  have hmemij : (j ∈ g.outOf i) ↔ (i, j) ∈ edges := by
    rw [hchar i]
    exact TournamentGraph.mem_filterMap_snd_iff edges i j
  have hmemji : (i ∈ g.outOf j) ↔ (j, i) ∈ edges := by
    rw [hchar j]
    exact TournamentGraph.mem_filterMap_snd_iff edges j i
  have hfalse : g.is_valid_tournament_graph = false :=
    TournamentGraph.is_valid_false_of_pair
      (by rw [hlen]; omega) (by rw [hlen]; exact hj) hij
      (by rw [hmemij, hmemji]; exact hbad)
  rw [TournamentGraph.new, hg]
  show Except.ok (if g.is_valid_tournament_graph then some g else none)
    = Except.ok none
  rw [hfalse]
  rfl

/-- Witness for C5's amended statement: a missing pair. -/
theorem c5_new_rejects_bad_pairs_witness :
    TournamentGraph.new 2 [] = .ok none :=
  c5_new_rejects_bad_pairs 2 [] (by simp) 0 1 (by decide) (by decide)
    (by simp)

/-- Counterexample to C5 as stated: an edge list containing a self-edge
makes `TournamentGraph::new` abort at the self-edge assertion instead
of returning `None`. -/
theorem c5_counterexample :
    TournamentGraph.new 1 [(0, 0)] = .error (AbortKind.selfEdge 0) ∧
    ∀ r : Option TournamentGraph,
      TournamentGraph.new 1 [(0, 0)] ≠ .ok r := by
  refine ⟨rfl, ?_⟩
  intro r h
  rw [show TournamentGraph.new 1 [(0, 0)]
    = .error (AbortKind.selfEdge 0) from rfl] at h
  exact Except.noConfusion h

/-- C6 (amended): for a nonempty candidate, `validate_path` returns
true iff the candidate has exactly `n` entries and every consecutive
pair is an edge — uniqueness of the entries is not checked.  (On an
empty candidate with `n = 0` the code aborts indexing `path[0]`.) -/
theorem c6_validate_path_amended (g : TournamentGraph) (path : List Nat)
    (hne : path ≠ []) :
    (g.validate_path path = some true ↔
      path.length = g.nodes.length ∧
      List.Chain' (fun a c => c ∈ g.outOf a) path) :=
  TournamentGraph.validate_path_iff g path hne

/-- Witness for C6's amended statement. -/
theorem c6_validate_path_amended_witness :
    ((TournamentGraph.mk [[1], []]).validate_path [0, 1] = some true ↔
      ([0, 1] : List Nat).length
          = (TournamentGraph.mk [[1], []]).nodes.length ∧
      List.Chain' (fun a c =>
        c ∈ (TournamentGraph.mk [[1], []]).outOf a) [0, 1]) :=
  c6_validate_path_amended (TournamentGraph.mk [[1], []]) [0, 1]
    (by decide)

/-- Counterexample to C6 as stated: on a valid 4-node tournament,
`validate_path` accepts the candidate `[0, 1, 2, 0]`, which has the
right length and all consecutive edges but repeats NodeID 0 (and omits
NodeID 3). -/
theorem c6_counterexample :
    (TournamentGraph.mk [[1, 3], [2, 3], [0, 3], []]
      ).is_valid_tournament_graph = true ∧
    (TournamentGraph.mk [[1, 3], [2, 3], [0, 3], []]).validate_path
      [0, 1, 2, 0] = some true ∧
    List.count 0 [0, 1, 2, 0] = 2 := by
  refine ⟨by decide, by decide, by decide⟩

/-- C7: for every `n` and every boolean stream, `new_random` yields a
graph (no abort) that passes the tournament-property check, has no
self-edges, and for every pair `i < j < n` has exactly one directed
edge whose direction is picked by the drawn boolean (draw number
`j*(j-1)/2 + i`: `true` gives `j → i`, `false` gives `i → j`). -/
theorem c7_new_random_is_valid (n : Nat) (coins : Nat → Bool) :
    ∃ g : TournamentGraph, TournamentGraph.new_random n coins = .ok g ∧
      g.is_valid_tournament_graph = true ∧
      g.nodes.length = n ∧
      (∀ a, a ∉ g.outOf a) ∧
      (∀ i j, i < j → j < n →
        ((j ∈ g.outOf i) ↔ coins (j * (j - 1) / 2 + i) = false) ∧
        ((i ∈ g.outOf j) ↔ coins (j * (j - 1) / 2 + i) = true)) := by
  have hwf : ∀ p ∈ TournamentGraph.random_edges n coins,
      p.1 < n ∧ p.2 < n ∧ p.1 ≠ p.2 :=
    fun _ hp => TournamentGraph.random_edges_wf hp
  obtain ⟨g, hg, hlen, hchar⟩ :=
    TournamentGraph.new_unchecked_ok n (TournamentGraph.random_edges n coins)
      hwf
  have hmem : ∀ a c, (c ∈ g.outOf a) ↔
      (a, c) ∈ TournamentGraph.random_edges n coins := by
    intro a c
    rw [hchar a]
    exact TournamentGraph.mem_filterMap_snd_iff _ a c
  have hnodup : ∀ l ∈ g.nodes, l.Nodup := by
    intro l hl
    obtain ⟨a, ha, hEq⟩ := List.mem_iff_getElem.mp hl
    have hgd : g.nodes[a] = g.outOf a := by
      rw [TournamentGraph.outOf, List.getD_eq_getElem?_getD,
        List.getElem?_eq_getElem ha]
      rfl
    rw [← hEq, hgd, hchar a]
    refine List.Nodup.map_on ?_
      ((TournamentGraph.random_edges_nodup n coins).filter _)
    intro p hp q hq hpq
    rw [List.mem_filter] at hp hq
    have hp1 : p.1 = a := by simpa using hp.2
    have hq1 : q.1 = a := by simpa using hq.2
    exact Prod.ext (hp1.trans hq1.symm) hpq
  have hpairs : ∀ i j, i < g.nodes.length → j < g.nodes.length → i < j →
      ((j ∈ g.outOf i) ↔ ¬ (i ∈ g.outOf j)) := by
    intro i j _ hj hij
    rw [hmem i j, hmem j i]
    obtain ⟨h1, h2⟩ := TournamentGraph.random_edges_pair (n := n) coins hij
      (by omega)
    rw [h1, h2]
    cases coins (j * (j - 1) / 2 + i) <;> simp
  refine ⟨g, by rw [TournamentGraph.new_random]; exact hg,
    TournamentGraph.is_valid_intro hnodup hpairs, hlen, ?_, ?_⟩
  · intro a ha
    rw [hmem a a] at ha
    exact (TournamentGraph.random_edges_wf ha).2.2 rfl
  · intro i j hij hj
    obtain ⟨h1, h2⟩ := TournamentGraph.random_edges_pair coins hij hj
    exact ⟨by rw [hmem i j]; exact h1, by rw [hmem j i]; exact h2⟩

/-- Witness for C7 at a concrete size and stream. -/
theorem c7_new_random_is_valid_witness :
    ∃ g : TournamentGraph,
      TournamentGraph.new_random 3 (fun c => c % 2 == 0) = .ok g ∧
      g.is_valid_tournament_graph = true ∧
      g.nodes.length = 3 ∧
      (∀ a, a ∉ g.outOf a) ∧
      (∀ i j, i < j → j < 3 →
        ((j ∈ g.outOf i) ↔ (fun c => c % 2 == 0) (j * (j - 1) / 2 + i)
            = false) ∧
        ((i ∈ g.outOf j) ↔ (fun c => c % 2 == 0) (j * (j - 1) / 2 + i)
            = true)) :=
  c7_new_random_is_valid 3 (fun c => c % 2 == 0)

/-- C8: on a list satisfying the chain invariant, `insert_after` on a
placed `existingID` and a fresh `newID` splices `newID` immediately
after `existingID`: the traversal shows it right after `existingID`
with everything else in its old relative order, `newID` inherits
`existingID`'s former successor, `existingID`'s successor becomes
`newID`, and the tail moves to `newID` exactly when `existingID` was
the tail. -/
theorem c8_insert_after_splices (l : PLinkedList) (path : List Nat)
    (e x : Nat) (hI : PLinkedList.LInv l path) (he : e ∈ path)
    (hx : x < l.links.length) (hxp : x ∉ path) :
    ∃ l2, l.insert_after e x = some l2 ∧
      ∃ pre suf, path = pre ++ e :: suf ∧
        l2.iterList = some (pre ++ e :: x :: suf) ∧
        l2.first = l.first ∧
        l2.last = (if e = l.last then x else l.last) ∧
        l2.get_succ x = l.get_succ e ∧
        l2.get_succ e = some (some x) := by
  obtain ⟨l2, hins, _, hf, hl, hsx, hse, hI2⟩ :=
    PLinkedList.insert_after_LInv hI he hx hxp
  obtain ⟨pre, suf, heq⟩ := List.append_of_mem he
  have henotpre : e ∉ pre := by
    have hN := hI.2.1
    rw [heq, List.nodup_append] at hN
    intro hpp
    exact hN.2.2 hpp (List.mem_cons_self _ _)
  have hsplice : PLinkedList.spliceAfter path e x = pre ++ e :: x :: suf := by
    rw [heq]
    exact PLinkedList.spliceAfter_decomp pre suf henotpre
  refine ⟨l2, hins, pre, suf, heq, ?_, hf, hl, hsx, hse⟩
  rw [← hsplice]
  exact PLinkedList.iterList_of_LInv hI2

/-- Witness for C8 on a concrete three-id list. -/
theorem c8_insert_after_splices_witness :
    ∃ l2, (PLinkedList.mk 0 2 [some 2, none, none]).insert_after 0 1
        = some l2 ∧
      ∃ pre suf, ([0, 2] : List Nat) = pre ++ 0 :: suf ∧
        l2.iterList = some (pre ++ 0 :: 1 :: suf) ∧
        l2.first = (PLinkedList.mk 0 2 [some 2, none, none]).first ∧
        l2.last = (if 0 = (PLinkedList.mk 0 2 [some 2, none, none]).last
          then 1 else (PLinkedList.mk 0 2 [some 2, none, none]).last) ∧
        l2.get_succ 1
          = (PLinkedList.mk 0 2 [some 2, none, none]).get_succ 0 ∧
        l2.get_succ 0 = some (some 1) :=
  c8_insert_after_splices (PLinkedList.mk 0 2 [some 2, none, none])
    [0, 2] 0 1 (by decide) (by decide) (by decide) (by decide)

/-- C9 (amended): an edge list containing a self-edge makes both `new`
and `new_unchecked` abort during edge insertion, before any graph or
validation result; when every edge endpoint is in `[0, n)` the abort is
precisely the self-edge assertion.  (As the counterexample shows, with
an out-of-range edge before the self-edge the abort is an index panic
rather than the assertion.) -/
theorem c9_self_edge_aborts (n : Nat) (edges : List (Nat × Nat)) (i : Nat)
    (h : (i, i) ∈ edges) :
    (∃ e, TournamentGraph.new_unchecked n edges = .error e) ∧
    (∃ e, TournamentGraph.new n edges = .error e) ∧
    ((∀ p ∈ edges, p.1 < n ∧ p.2 < n) →
      ∃ j, TournamentGraph.new_unchecked n edges
          = .error (AbortKind.selfEdge j) ∧
        TournamentGraph.new n edges = .error (AbortKind.selfEdge j)) := by
  obtain ⟨e, he⟩ :=
    TournamentGraph.insertEdges_self_abort edges (List.replicate n []) h
  refine ⟨⟨e, ?_⟩, ⟨e, ?_⟩, ?_⟩
  · rw [TournamentGraph.new_unchecked, he]
    rfl
  · rw [TournamentGraph.new, TournamentGraph.new_unchecked, he]
    rfl
  · intro hwf
    obtain ⟨j, hj⟩ :=
      TournamentGraph.insertEdges_self_assert edges (List.replicate n []) h
        (fun p hp => by simpa using hwf p hp)
    refine ⟨j, ?_, ?_⟩
    · rw [TournamentGraph.new_unchecked, hj]
      rfl
    · rw [TournamentGraph.new, TournamentGraph.new_unchecked, hj]
      rfl

/-- Witness for C9's amended statement. -/
theorem c9_self_edge_aborts_witness :
    (∃ e, TournamentGraph.new_unchecked 1 [(0, 0)] = .error e) ∧
    (∃ e, TournamentGraph.new 1 [(0, 0)] = .error e) ∧
    ((∀ p ∈ [((0 : Nat), (0 : Nat))], p.1 < 1 ∧ p.2 < 1) →
      ∃ j, TournamentGraph.new_unchecked 1 [(0, 0)]
          = .error (AbortKind.selfEdge j) ∧
        TournamentGraph.new 1 [(0, 0)] = .error (AbortKind.selfEdge j)) :=
  c9_self_edge_aborts 1 [(0, 0)] 0 (by decide)

/-- Counterexample to C9 as stated: with an out-of-range edge placed
before the self-edge, construction still aborts, but with the
index-out-of-bounds panic of `nodes[snk]`, not the self-edge
assertion. -/
theorem c9_counterexample :
    TournamentGraph.new_unchecked 1 [(0, 1), (0, 0)]
      = .error AbortKind.oobIndex ∧
    TournamentGraph.new 1 [(0, 1), (0, 0)] = .error AbortKind.oobIndex ∧
    ∀ j, AbortKind.oobIndex ≠ AbortKind.selfEdge j := by
  refine ⟨rfl, rfl, ?_⟩
  intro j h
  exact AbortKind.noConfusion h

/-- C10: every state reachable from `new(length, first)` under the
documented insertion discipline has the tail linking to `None` and a
cycle-free chain: collecting the iterator from `first` terminates,
visits exactly the placed ids, each once, and ends at `last`. -/
theorem c10_reached_chain (length first : Nat) (l : PLinkedList)
    (placed : List Nat) (h : PLinkedList.Reached length first l placed) :
    l.links.length = length ∧
    l.get_succ l.last = some none ∧
    ∃ path, l.iterList = some path ∧ path.Perm placed ∧ path.Nodup ∧
      path.head? = some l.first ∧ path.getLast? = some l.last := by
  obtain ⟨hlen, path, hI, hperm⟩ := PLinkedList.reached_inv h
  refine ⟨hlen, ?_, path, PLinkedList.iterList_of_LInv hI, hperm,
    hI.2.1, hI.2.2.1, hI.2.2.2.1⟩
  show l.links[l.last]? = some none
  exact PLinkedList.chainedB_last_none hI.2.2.2.2.1 hI.2.2.2.1

/-- Witness for C10 at the initial state. -/
theorem c10_reached_chain_witness :
    (PLinkedList.new 2 0).links.length = 2 ∧
    (PLinkedList.new 2 0).get_succ (PLinkedList.new 2 0).last
      = some none ∧
    ∃ path, (PLinkedList.new 2 0).iterList = some path ∧
      path.Perm [0] ∧ path.Nodup ∧
      path.head? = some (PLinkedList.new 2 0).first ∧
      path.getLast? = some (PLinkedList.new 2 0).last :=
  c10_reached_chain 2 0 (PLinkedList.new 2 0) [0]
    (PLinkedList.Reached.init (by decide))
